import Mathlib

/-!
Verification of the chart-extraction core of the muspad-study-dashboard
repository (src/python/serology_plots.py), shallowly embedded in Lean 4.

Texts are embedded as `List Char`.  Python exceptions are embedded as
`Except`-style error values.  The functions keep the source's names where
Lean allows it (`_extract_balanced` becomes `extractBalanced`, and so on).
-/

namespace Muspad

/-- Errors of `_extract_balanced`:
`indexError` models the Python `IndexError` raised by `s[start_index]`
when the index is out of range; `invalidStart` the
`ValueError("start_index does not point to the expected opening character")`;
`unbalanced` the `ValueError("Unbalanced brackets while parsing")`. -/
inductive ScanErr where
  | indexError
  | invalidStart
  | unbalanced
deriving DecidableEq, Repr

/-- The mutable scan state of `_extract_balanced`'s loop:
`depth`, `in_string`, `string_quote`, `escape`. -/
structure ScanSt where
  depth : Int
  inString : Bool
  quote : Char
  escape : Bool
deriving DecidableEq, Repr

/-- One iteration of the `while` loop of `_extract_balanced` when
`in_string` is true (the first `if in_string:` block of the source). -/
def stringStep (st : ScanSt) (ch : Char) : ScanSt :=
  if st.escape then { st with escape := false }
  else if ch = '\\' then { st with escape := true }
  else if ch = st.quote then { st with inString := false }
  else st

/-- The `while i < len(s)` loop of `_extract_balanced`, processing the
remaining characters `l` (the suffix of the text from position `i`).
Returns `some j` where `j` is the absolute index of the closing character
at which `depth` returned to 0 (the source's `return` point), and `none`
when the end of the text is reached (the source then raises
"Unbalanced brackets while parsing").  The branch order mirrors the
source's `if`/`elif` chain exactly. -/
def scanLoop (o c : Char) : List Char → Nat → ScanSt → Option Nat
  | [], _, _ => none
  | ch :: rest, i, st =>
    if st.inString then
      scanLoop o c rest (i + 1) (stringStep st ch)
    else if ch = '\'' ∨ ch = '"' then
      scanLoop o c rest (i + 1) { st with inString := true, quote := ch }
    else if ch = o then
      scanLoop o c rest (i + 1) { st with depth := st.depth + 1 }
    else if ch = c then
      if st.depth - 1 = 0 then some i
      else scanLoop o c rest (i + 1) { st with depth := st.depth - 1 }
    else
      scanLoop o c rest (i + 1) st

/-- `_extract_balanced(s, open_char, close_char, start_index)`:
extract a balanced bracketed substring starting at the `open_char` index
(inclusive); returns `(substring, end_position_after_closing_char)`.
The Python expression `s[start_index]` raises `IndexError` before the
opening-character check when `start_index` is out of range, which the
leading bounds test models. -/
def extractBalanced (s : List Char) (o c : Char) (start : Nat) :
    Except ScanErr (List Char × Nat) :=
  if h : start < s.length then
    if s.get ⟨start, h⟩ ≠ o then .error .invalidStart
    else
      match scanLoop o c (s.drop start) start ⟨0, false, ' ', false⟩ with
      | some j => .ok ((s.drop start).take (j + 1 - start), j + 1)
      | none => .error .unbalanced
  else .error .indexError

/-!
A declarative grammar of balanced spans, against which the scanner is
verified.  `StrBody q body` says `body` is the interior of a string
literal quoted by `q`: a sequence of characters in which `q` and `\`
occur only as part of a two-character escape pair `\x`.  `Toks o c xs`
says `xs` is a balanced interior for the bracket pair `(o, c)`: a
sequence of plain characters, complete string literals (whose bracket
characters are inert) and properly nested `o ... c` spans.
-/

inductive StrBody (q : Char) : List Char → Prop where
  | nil : StrBody q []
  | chr (ch : Char) (rest : List Char) :
      ch ≠ q → ch ≠ '\\' → StrBody q rest → StrBody q (ch :: rest)
  | esc (ch : Char) (rest : List Char) :
      StrBody q rest → StrBody q ('\\' :: ch :: rest)

inductive Toks (o c : Char) : List Char → Prop where
  | nil : Toks o c []
  | plain (ch : Char) (rest : List Char) :
      ch ≠ o → ch ≠ c → ch ≠ '\'' → ch ≠ '"' →
      Toks o c rest → Toks o c (ch :: rest)
  | strlit (q : Char) (body rest : List Char) :
      q = '\'' ∨ q = '"' → StrBody q body → Toks o c rest →
      Toks o c (q :: (body ++ q :: rest))
  | nest (inner rest : List Char) :
      Toks o c inner → Toks o c rest → Toks o c (o :: (inner ++ c :: rest))

theorem Toks.append {o c : Char} {a b : List Char}
    (ha : Toks o c a) (hb : Toks o c b) : Toks o c (a ++ b) := by
  induction ha with
  | nil => simpa using hb
  | plain ch rest h1 h2 h3 h4 _ ih =>
      exact Toks.plain ch (rest ++ b) h1 h2 h3 h4 ih
  | strlit q body rest hq hbody _ ih =>
      have := Toks.strlit (o := o) (c := c) q body (rest ++ b) hq hbody ih
      simpa [List.append_assoc] using this
  | nest inner rest hinner _ ihinner ihrest =>
      have := Toks.nest inner (rest ++ b) hinner ihrest
      simpa [List.append_assoc] using this

/-- While inside a string literal, the scanner passes over the whole
escaped body without leaving the string and without touching the depth. -/
theorem scanLoop_strBody {q : Char} {body : List Char} (h : StrBody q body)
    (o c : Char) (ys : List Char) (i : Nat) (d : Int) :
    scanLoop o c (body ++ ys) i ⟨d, true, q, false⟩ =
      scanLoop o c ys (i + body.length) ⟨d, true, q, false⟩ := by
  induction h generalizing i with
  | nil => simp
  | chr ch rest h1 h2 _ ih =>
      have : scanLoop o c ((ch :: rest) ++ ys) i ⟨d, true, q, false⟩ =
          scanLoop o c (rest ++ ys) (i + 1) ⟨d, true, q, false⟩ := by
        simp [scanLoop, stringStep, h1, h2]
      rw [this, ih]
      congr 1
      simp only [List.length_cons]
      omega
  | esc ch rest _ ih =>
      have : scanLoop o c (('\\' :: ch :: rest) ++ ys) i ⟨d, true, q, false⟩ =
          scanLoop o c (rest ++ ys) (i + 1 + 1) ⟨d, true, q, false⟩ := by
        simp [scanLoop, stringStep]
      rw [this, ih]
      congr 1
      simp only [List.length_cons]
      omega

/-- Over a balanced interior the scanner neither terminates nor changes
the depth, provided the depth is at least 1 throughout (only the
remembered `string_quote` may differ afterwards). -/
theorem scanLoop_toks {o c : Char} {xs : List Char} (h : Toks o c xs)
    (ho1 : o ≠ '\'') (ho2 : o ≠ '"') (hc1 : c ≠ '\'') (hc2 : c ≠ '"')
    (hco : c ≠ o) :
    ∀ (ys : List Char) (i : Nat) (d : Int) (q : Char), 1 ≤ d →
      ∃ q2, scanLoop o c (xs ++ ys) i ⟨d, false, q, false⟩ =
        scanLoop o c ys (i + xs.length) ⟨d, false, q2, false⟩ := by
  induction h with
  | nil =>
      intro ys i d q hd
      exact ⟨q, by simp⟩
  | plain ch rest h1 h2 h3 h4 _ ih =>
      intro ys i d q hd
      obtain ⟨q2, hq2⟩ := ih ys (i + 1) d q hd
      refine ⟨q2, ?_⟩
      have hstep : scanLoop o c ((ch :: rest) ++ ys) i ⟨d, false, q, false⟩ =
          scanLoop o c (rest ++ ys) (i + 1) ⟨d, false, q, false⟩ := by
        simp [scanLoop, h1, h2, h3, h4]
      rw [hstep, hq2]
      congr 1
      simp only [List.length_cons, List.length_append]
      omega
  | strlit qq body rest hq hbody _ ih =>
      intro ys i d q hd
      obtain ⟨q2, hq2⟩ := ih ys (i + 1 + body.length + 1) d qq hd
      refine ⟨q2, ?_⟩
      have hqb : qq ≠ '\\' := by
        rcases hq with h | h <;> simp [h]
      have hstep1 : scanLoop o c ((qq :: (body ++ qq :: rest)) ++ ys) i
            ⟨d, false, q, false⟩ =
          scanLoop o c ((body ++ qq :: rest) ++ ys) (i + 1)
            ⟨d, true, qq, false⟩ := by
        rcases hq with h | h <;> simp [scanLoop, h]
      have hstep2 : scanLoop o c ((body ++ qq :: rest) ++ ys) (i + 1)
            ⟨d, true, qq, false⟩ =
          scanLoop o c ((qq :: rest) ++ ys) (i + 1 + body.length)
            ⟨d, true, qq, false⟩ := by
        rw [List.append_assoc]
        exact scanLoop_strBody hbody o c ((qq :: rest) ++ ys) (i + 1) d
      have hstep3 : scanLoop o c ((qq :: rest) ++ ys) (i + 1 + body.length)
            ⟨d, true, qq, false⟩ =
          scanLoop o c (rest ++ ys) (i + 1 + body.length + 1)
            ⟨d, false, qq, false⟩ := by
        simp [scanLoop, stringStep, hqb]
      rw [hstep1, hstep2, hstep3, hq2]
      congr 1
      simp only [List.length_cons, List.length_append]
      omega
  | nest inner rest hinner _ ihinner ihrest =>
      intro ys i d q hd
      have hd1 : (1 : Int) ≤ d + 1 := by omega
      obtain ⟨q2, hq2⟩ := ihinner ((c :: rest) ++ ys) (i + 1) (d + 1) q hd1
      obtain ⟨q3, hq3⟩ := ihrest ys (i + 1 + inner.length + 1) d q2 hd
      refine ⟨q3, ?_⟩
      have hstep1 : scanLoop o c ((o :: (inner ++ c :: rest)) ++ ys) i
            ⟨d, false, q, false⟩ =
          scanLoop o c ((inner ++ c :: rest) ++ ys) (i + 1)
            ⟨d + 1, false, q, false⟩ := by
        simp [scanLoop, ho1, ho2]
      have hstep2 : scanLoop o c ((inner ++ c :: rest) ++ ys) (i + 1)
            ⟨d + 1, false, q, false⟩ =
          scanLoop o c ((c :: rest) ++ ys) (i + 1 + inner.length)
            ⟨d + 1, false, q2, false⟩ := by
        rw [List.append_assoc]
        exact hq2
      have hne : ¬ (d + 1 - 1 = (0 : Int)) := by omega
      have hne2 : ¬ (d = (0 : Int)) := by omega
      have hd' : d + 1 - 1 = d := by omega
      have hstep3 : scanLoop o c ((c :: rest) ++ ys) (i + 1 + inner.length)
            ⟨d + 1, false, q2, false⟩ =
          scanLoop o c (rest ++ ys) (i + 1 + inner.length + 1)
            ⟨d, false, q2, false⟩ := by
        simp [scanLoop, hc1, hc2, hco, hne, hne2, hd']
      rw [hstep1, hstep2, hstep3, hq3]
      congr 1
      simp only [List.length_cons, List.length_append]
      omega

/-- Starting on the opening character of a balanced span, the scanner
stops exactly at the matching closing character. -/
theorem scanLoop_balanced {o c : Char} {inner : List Char}
    (h : Toks o c inner)
    (ho1 : o ≠ '\'') (ho2 : o ≠ '"') (hc1 : c ≠ '\'') (hc2 : c ≠ '"')
    (hco : c ≠ o) (rest : List Char) (i : Nat) (q : Char) :
    scanLoop o c (o :: (inner ++ c :: rest)) i ⟨0, false, q, false⟩ =
      some (i + 1 + inner.length) := by
  have hstep1 : scanLoop o c (o :: (inner ++ c :: rest)) i
        ⟨0, false, q, false⟩ =
      scanLoop o c (inner ++ c :: rest) (i + 1) ⟨1, false, q, false⟩ := by
    simp [scanLoop, ho1, ho2]
  obtain ⟨q2, hq2⟩ := scanLoop_toks h ho1 ho2 hc1 hc2 hco (c :: rest)
    (i + 1) 1 q (by omega)
  have hstep3 : scanLoop o c (c :: rest) (i + 1 + inner.length)
        ⟨1, false, q2, false⟩ = some (i + 1 + inner.length) := by
    simp [scanLoop, hc1, hc2, hco]
  rw [hstep1, hq2, hstep3]

theorem getLenAppend {α : Type} (a : List α) (x : α) (b : List α)
    (h : a.length < (a ++ x :: b).length) :
    (a ++ x :: b).get ⟨a.length, h⟩ = x := by
  rw [List.get_eq_getElem, List.getElem_append_right (Nat.le_refl a.length)]
  simp

/-- The scanner applied at the opening character of a balanced span
(`Toks` interior) returns exactly that span together with the index just
past its closing character, for any surrounding text. -/
theorem extractBalanced_ok (pre inner rest : List Char) {o c : Char}
    (ho1 : o ≠ '\'') (ho2 : o ≠ '"') (hc1 : c ≠ '\'') (hc2 : c ≠ '"')
    (hco : c ≠ o) (h : Toks o c inner) :
    extractBalanced (pre ++ o :: (inner ++ c :: rest)) o c pre.length =
      .ok (o :: (inner ++ c :: []), pre.length + inner.length + 2) := by
  have hlen : pre.length < (pre ++ o :: (inner ++ c :: rest)).length := by
    simp
  have hget : (pre ++ o :: (inner ++ c :: rest)).get ⟨pre.length, hlen⟩ = o :=
    getLenAppend pre o (inner ++ c :: rest) hlen
  have hdrop : (pre ++ o :: (inner ++ c :: rest)).drop pre.length =
      o :: (inner ++ c :: rest) := by
    simpa using List.drop_left pre (o :: (inner ++ c :: rest))
  have hscan := scanLoop_balanced h ho1 ho2 hc1 hc2 hco rest pre.length ' '
  have htake : (o :: (inner ++ c :: rest)).take
        (pre.length + inner.length + 2 - pre.length) =
      o :: (inner ++ c :: []) := by
    have hn : pre.length + inner.length + 2 - pre.length =
        (inner.length + 1) + 1 := by omega
    rw [hn, List.take_succ_cons]
    congr 1
    calc (inner ++ c :: rest).take (inner.length + 1)
        = inner ++ (c :: rest).take 1 := List.take_append 1
      _ = inner ++ c :: [] := by simp [List.take]
  rw [List.get_eq_getElem] at hget
  rw [extractBalanced, dif_pos hlen, if_neg (by simp [hget]), hdrop, hscan]
  have hn2 : pre.length + 1 + inner.length + 1 = pre.length + inner.length + 2 := by
    omega
  simp only [hn2, htake]

/-- When the text ends while the depth is still positive (here: the text
is exhausted right after a balanced interior, the closing character never
appearing), the scanner fails with the "Unbalanced brackets" error and
returns no partial span. -/
theorem extractBalanced_unbalanced (pre inner : List Char) {o c : Char}
    (ho1 : o ≠ '\'') (ho2 : o ≠ '"') (hc1 : c ≠ '\'') (hc2 : c ≠ '"')
    (hco : c ≠ o) (h : Toks o c inner) :
    extractBalanced (pre ++ o :: inner) o c pre.length =
      .error .unbalanced := by
  have hlen : pre.length < (pre ++ o :: inner).length := by simp
  have hget : (pre ++ o :: inner).get ⟨pre.length, hlen⟩ = o :=
    getLenAppend pre o inner hlen
  have hdrop : (pre ++ o :: inner).drop pre.length = o :: inner := by
    simpa using List.drop_left pre (o :: inner)
  have hstep1 : scanLoop o c (o :: inner) pre.length ⟨0, false, ' ', false⟩ =
      scanLoop o c inner (pre.length + 1) ⟨1, false, ' ', false⟩ := by
    simp [scanLoop, ho1, ho2]
  obtain ⟨q2, hq2⟩ := scanLoop_toks h ho1 ho2 hc1 hc2 hco []
    (pre.length + 1) 1 ' ' (by omega)
  have hnil : scanLoop o c [] (pre.length + 1 + inner.length)
      ⟨1, false, q2, false⟩ = none := rfl
  have hscan : scanLoop o c (o :: inner) pre.length ⟨0, false, ' ', false⟩ =
      none := by
    rw [hstep1]
    have : scanLoop o c inner (pre.length + 1) ⟨1, false, ' ', false⟩ =
        scanLoop o c (inner ++ []) (pre.length + 1) ⟨1, false, ' ', false⟩ := by
      simp
    rw [this, hq2, hnil]
  rw [List.get_eq_getElem] at hget
  rw [extractBalanced, dif_pos hlen, if_neg (by simp [hget]), hdrop, hscan]

/-- C1: for every text, opening/closing bracket pair and start index
pointing at the opening character of a balanced span (`Toks` interior,
in which bracket characters inside single- or double-quoted string
literals — including quotes escaped by a backslash — are inert), the
scanner returns the full balanced span up to the matching close,
together with the index just past it. -/
theorem c1_scan_returns_full_balanced_span (pre inner rest : List Char)
    {o c : Char} (ho1 : o ≠ '\'') (ho2 : o ≠ '"') (hc1 : c ≠ '\'')
    (hc2 : c ≠ '"') (hco : c ≠ o) (h : Toks o c inner) :
    extractBalanced (pre ++ o :: (inner ++ c :: rest)) o c pre.length =
      .ok (o :: (inner ++ c :: []), pre.length + inner.length + 2) :=
  extractBalanced_ok pre inner rest ho1 ho2 hc1 hc2 hco h

/-- Witness for C1 at the spec's escaped-quote example `["a\"]b"]`:
the `]` hidden inside the string literal (after the backslash-escaped
quote) does not cause a premature match; the whole nine-character span
is returned. -/
theorem c1_witness :
    extractBalanced
        ('[' :: '"' :: 'a' :: '\\' :: '"' :: ']' :: 'b' :: '"' :: ']' :: [])
        '[' ']' 0 =
      .ok ('[' :: '"' :: 'a' :: '\\' :: '"' :: ']' :: 'b' :: '"' :: ']' :: [],
        9) := by
  have hb : StrBody '"' ('a' :: '\\' :: '"' :: ']' :: 'b' :: []) :=
    .chr 'a' _ (by decide) (by decide)
      (.esc '"' _ (.chr ']' _ (by decide) (by decide)
        (.chr 'b' _ (by decide) (by decide) .nil)))
  have ht : Toks '[' ']'
      ('"' :: 'a' :: '\\' :: '"' :: ']' :: 'b' :: '"' :: []) := by
    have := Toks.strlit (o := '[') (c := ']') '"'
      ('a' :: '\\' :: '"' :: ']' :: 'b' :: []) [] (Or.inr rfl) hb .nil
    simpa using this
  have := c1_scan_returns_full_balanced_span [] _ [] (by decide) (by decide)
    (by decide) (by decide) (by decide) ht
  simpa using this

/-- C2: the scanner is a total function (the embedding is a terminating
recursion), and on input that ends while the nesting depth is still
positive — the text is exhausted right after the opening character and a
balanced interior, the matching close never appearing — it fails with the
`unbalanced` error ("Unbalanced brackets while parsing") and returns no
partial span. -/
theorem c2_scan_unbalanced_error (pre inner : List Char) {o c : Char}
    (ho1 : o ≠ '\'') (ho2 : o ≠ '"') (hc1 : c ≠ '\'') (hc2 : c ≠ '"')
    (hco : c ≠ o) (h : Toks o c inner) :
    extractBalanced (pre ++ o :: inner) o c pre.length =
      .error .unbalanced :=
  extractBalanced_unbalanced pre inner ho1 ho2 hc1 hc2 hco h

/-- Witness for C2 at the spec's example `"[1,2"`: the scan fails with
the unbalanced-span error. -/
theorem c2_witness :
    extractBalanced ('[' :: '1' :: ',' :: '2' :: []) '[' ']' 0 =
      .error .unbalanced := by
  have ht : Toks '[' ']' ('1' :: ',' :: '2' :: []) :=
    .plain '1' _ (by decide) (by decide) (by decide) (by decide)
      (.plain ',' _ (by decide) (by decide) (by decide) (by decide)
        (.plain '2' _ (by decide) (by decide) (by decide) (by decide) .nil))
  have := c2_scan_unbalanced_error [] ('1' :: ',' :: '2' :: [])
    (o := '[') (c := ']') (by decide) (by decide) (by decide) (by decide)
    (by decide) ht
  simpa using this

/-- C10: for every text and every start index greater than or equal to
the length of the text, the scanner fails with the out-of-bounds
indexing error (the Python `s[start_index]` raises `IndexError` before
the opening-character precondition is ever checked), not with
`invalidStart` or `unbalanced`. -/
theorem c10_scan_out_of_range (s : List Char) (o c : Char) (start : Nat)
    (h : s.length ≤ start) :
    extractBalanced s o c start = .error .indexError := by
  rw [extractBalanced, dif_neg (by omega)]

/-- Witness for C10: scanning `"[1"` from start index 2 (= its length)
raises the indexing error. -/
theorem c10_witness :
    extractBalanced ('[' :: '1' :: []) '[' ']' 2 = .error .indexError :=
  c10_scan_out_of_range ('[' :: '1' :: []) '[' ']' 2 (by decide)

/-!
The call-argument locator `_extract_plotly_call_args`.  The source
searches for the regular expression `Plotly\.newPlot\s*\(`; the embedding
keeps the call name as a parameter (the spec's `locate(text, callName)`)
and instantiates it with `Plotly.newPlot` for the loader.  `\s` is
modelled by the six ASCII whitespace characters it always matches (the
documents at hand contain no exotic Unicode whitespace).
-/

/-- The ASCII characters matched by Python's regex `\s` and stripped by
`str.strip()`. -/
def isPySpace (ch : Char) : Bool :=
  ch = ' ' ∨ ch = '\t' ∨ ch = '\n' ∨ ch = '\r' ∨ ch = '\x0b' ∨ ch = '\x0c'

/-- Length of the maximal whitespace run at the head of the list (the
greedy `\s*`). -/
def countWs : List Char → Nat
  | [] => 0
  | ch :: rest => if isPySpace ch then countWs rest + 1 else 0

/-- Try the pattern `callName\s*\(` at the head of `s`; on success return
the offset just past the opening parenthesis (`m.end()` relative to the
match position). -/
def matchCallAt (pat s : List Char) : Option Nat :=
  if pat.isPrefixOf s then
    let rest := s.drop pat.length
    let k := countWs rest
    match rest.drop k with
    | '(' :: _ => some (pat.length + k + 1)
    | _ => none
  else none

/-- `re.search`: the leftmost position at which `callName\s*\(` matches;
returns the absolute index just past the opening parenthesis. -/
def searchCall (pat : List Char) : List Char → Nat → Option Nat
  | [], _ => none
  | s :: tail, i =>
    match matchCallAt pat (s :: tail) with
    | some e => some (i + e)
    | none => searchCall pat tail (i + 1)

/-- Forward scan for a character, carrying the absolute index. -/
def findIdxFrom (ch : Char) : List Char → Nat → Option Nat
  | [], _ => none
  | c2 :: t, i => if c2 = ch then some i else findIdxFrom ch t (i + 1)

/-- Python `text.find(ch, start)`, with `None` for the sentinel `-1`. -/
def findCharFrom (s : List Char) (ch : Char) (start : Nat) : Option Nat :=
  findIdxFrom ch (s.drop start) start

/-- Python slice `s[a:b]`. -/
def sliceList (s : List Char) (a b : Nat) : List Char := (s.take b).drop a

/-- Python `str.strip()` over the ASCII whitespace characters. -/
def stripChars (l : List Char) : List Char :=
  ((l.dropWhile isPySpace).reverse.dropWhile isPySpace).reverse

/-- Errors raised by `_extract_plotly_call_args`:
`noCall` is `ValueError("No Plotly.newPlot(...) call found")`;
`noComma` is the malformed-call error (no comma after the first
argument); `noDataStart` / `noLayoutStart` are the two could-not-locate
errors; `scanFail` wraps a propagated `_extract_balanced` error.
`parenLost` marks the unreachable branch in which `find("(", m.end()-1)`
fails although the regex match itself consumed that parenthesis. -/
inductive LocErr where
  | noCall
  | noComma
  | noDataStart
  | noLayoutStart
  | parenLost
  | scanFail (e : ScanErr)
deriving DecidableEq, Repr

/-- The tuple returned by `_extract_plotly_call_args`:
`(div_arg, data_str, layout_str, config_json)`. -/
structure CallArgs where
  divArg : List Char
  dataStr : List Char
  layoutStr : List Char
  configStr : Option (List Char)
deriving DecidableEq, Repr

/-- `_extract_plotly_call_args(script_text)`, with the searched call
name as a parameter (the source instantiates it with `Plotly.newPlot`).
Mirrors the source line by line: locate the call, take the first
argument up to the first comma, scan the `[...]` data argument and the
`{...}` layout argument, rescan the whole parenthesised call, and treat
a further `{` before the call's closing parenthesis as the optional
config argument. -/
def extractCallArgs (pat s : List Char) : Except LocErr CallArgs :=
  match searchCall pat s 0 with
  | none => .error .noCall
  | some e =>
    match findCharFrom s ',' e with
    | none => .error .noComma
    | some firstComma =>
      let divArg := stripChars (sliceList s e firstComma)
      match findCharFrom s '[' (firstComma + 1) with
      | none => .error .noDataStart
      | some dataStart =>
        match extractBalanced s '[' ']' dataStart with
        | .error se => .error (.scanFail se)
        | .ok (dataStr, afterData) =>
          match findCharFrom s '{' afterData with
          | none => .error .noLayoutStart
          | some layoutStart =>
            match extractBalanced s '{' '}' layoutStart with
            | .error se => .error (.scanFail se)
            | .ok (layoutStr, afterLayout) =>
              match findCharFrom s '(' (e - 1) with
              | none => .error .parenLost
              | some parenOpen =>
                match extractBalanced s '(' ')' parenOpen with
                | .error se => .error (.scanFail se)
                | .ok (_, callEnd) =>
                  match findCharFrom s '{' afterLayout with
                  | some bracePos =>
                    if bracePos < callEnd then
                      match extractBalanced s '{' '}' bracePos with
                      | .error se => .error (.scanFail se)
                      | .ok (configStr, _) =>
                        .ok ⟨divArg, dataStr, layoutStr, some configStr⟩
                    else .ok ⟨divArg, dataStr, layoutStr, none⟩
                  | none => .ok ⟨divArg, dataStr, layoutStr, none⟩

/-- The source's `_extract_plotly_call_args`, with the hard-coded
`Plotly.newPlot` call name. -/
def extractPlotlyCallArgs (s : List Char) : Except LocErr CallArgs :=
  extractCallArgs ("Plotly.newPlot".toList) s

/-- C3: `locate` on `callName("x", [1,2,{"k":"a,b"}], {"title":"T"})`
returns series text `[1,2,{"k":"a,b"}]` and layout text `{"title":"T"}`
and no options argument — the comma embedded inside the string literal
`"a,b"` does not split the argument list. -/
theorem c3_locate_embedded_comma :
    extractCallArgs ("callName".toList)
        (("callName(\"x\", [1,2,\x7b\"k\":\"a,b\"\x7d], " ++
          "\x7b\"title\":\"T\"\x7d)").toList) =
      .ok ⟨"\"x\"".toList, "[1,2,\x7b\"k\":\"a,b\"\x7d]".toList,
        "\x7b\"title\":\"T\"\x7d".toList, none⟩ := by
  rfl

/-!
A model of the Python `json` module as used by the loader
(`json.loads` for parsing, `json.dumps` with its defaults —
`ensure_ascii=False` as in the repository's entry point, separators
`", "` and `": "` — for serialising).  Python objects are modelled by
`Json`; dictionaries are association lists built in insertion order with
last-value-wins semantics, as Python's `dict`.  Two deliberate
restrictions of the model, neither exercised by the repository's
documents: numbers are integers (floats, `NaN` and `Infinity` are
outside the model), and `\uXXXX` escapes are decoded without
surrogate-pair combination. -/

inductive Json where
  | null
  | bool (b : Bool)
  | num (n : Int)
  | str (s : List Char)
  | arr (xs : List Json)
  | obj (kvs : List (List Char × Json))

instance : Inhabited Json := ⟨Json.null⟩

mutual
def jsize : Json → Nat
  | .null | .bool _ | .num _ | .str _ => 1
  | .arr xs => 1 + jsizeElems xs
  | .obj kvs => 1 + jsizeMembers kvs
def jsizeElems : List Json → Nat
  | [] => 0
  | x :: t => 1 + jsize x + jsizeElems t
def jsizeMembers : List (List Char × Json) → Nat
  | [] => 0
  | (_, v) :: t => 1 + jsize v + jsizeMembers t
end

/-- Lowercase hexadecimal digit, as in Python's `'\u%04x' % i`. -/
def hexDigitChar (n : Nat) : Char :=
  if n < 10 then Char.ofNat (48 + n) else Char.ofNat (87 + n)

/-- Python `json.encoder`'s escape of one character inside a string
(`ensure_ascii=False`: only `"`, `\` and the control range are escaped,
with the five shorthand escapes of `ESCAPE_DCT`). -/
def escChar (ch : Char) : List Char :=
  if ch = '"' then '\\' :: '"' :: []
  else if ch = '\\' then '\\' :: '\\' :: []
  else if ch = '\x08' then '\\' :: 'b' :: []
  else if ch = '\t' then '\\' :: 't' :: []
  else if ch = '\n' then '\\' :: 'n' :: []
  else if ch = '\x0c' then '\\' :: 'f' :: []
  else if ch = '\r' then '\\' :: 'r' :: []
  else if ch.toNat < 32 then
    '\\' :: 'u' :: '0' :: '0' ::
      hexDigitChar (ch.toNat / 16) :: hexDigitChar (ch.toNat % 16) :: []
  else ch :: []

def escString : List Char → List Char
  | [] => []
  | ch :: t => escChar ch ++ escString t

/-- A serialised JSON string literal, quotes included. -/
def dumpsStr (s : List Char) : List Char :=
  '"' :: (escString s ++ '"' :: [])

/-- Division loop for decimal printing, with fuel (structural, so the
kernel can evaluate it; `natCharsAux_eq_digits` below relates it to
`Nat.digits`). -/
def natCharsAux : Nat → Nat → List Char → List Char
  | 0, _, acc => acc
  | fuel + 1, n, acc =>
    if n = 0 then acc
    else natCharsAux fuel (n / 10) (Char.ofNat (48 + n % 10) :: acc)

/-- Decimal digits of a natural number, most significant first
(Python `str` on a nonnegative `int`). -/
def natChars (n : Nat) : List Char :=
  if n = 0 then '0' :: [] else natCharsAux n n []

/-- Python `str` on an `int`. -/
def intChars (n : Int) : List Char :=
  if n < 0 then '-' :: natChars n.natAbs else natChars n.toNat

mutual
/-- `json.dumps` (defaults; `ensure_ascii=False`). -/
def dumps : Json → List Char
  | .null => 'n' :: 'u' :: 'l' :: 'l' :: []
  | .bool true => 't' :: 'r' :: 'u' :: 'e' :: []
  | .bool false => 'f' :: 'a' :: 'l' :: 's' :: 'e' :: []
  | .num n => intChars n
  | .str s => dumpsStr s
  | .arr xs => '[' :: (dumpsElems xs ++ ']' :: [])
  | .obj kvs => '{' :: (dumpsMembers kvs ++ '}' :: [])
def dumpsElems : List Json → List Char
  | [] => []
  | x :: [] => dumps x
  | x :: y :: t => dumps x ++ ',' :: ' ' :: dumpsElems (y :: t)
def dumpsMembers : List (List Char × Json) → List Char
  | [] => []
  | (k, v) :: [] => dumpsStr k ++ ':' :: ' ' :: dumps v
  | (k, v) :: m :: t =>
      dumpsStr k ++ ':' :: ' ' :: dumps v ++ ',' :: ' ' :: dumpsMembers (m :: t)
end

/-- JSON whitespace skipped by the decoder (`json.decoder.WHITESPACE`). -/
def skipWsJ : List Char → List Char
  | [] => []
  | ch :: t =>
    if ch = ' ' ∨ ch = '\t' ∨ ch = '\n' ∨ ch = '\r' then skipWsJ t
    else ch :: t

def hexVal (ch : Char) : Option Nat :=
  if '0' ≤ ch ∧ ch ≤ '9' then some (ch.toNat - 48)
  else if 'a' ≤ ch ∧ ch ≤ 'f' then some (ch.toNat - 87)
  else if 'A' ≤ ch ∧ ch ≤ 'F' then some (ch.toNat - 55)
  else none

/-- `json.decoder.py_scanstring` after the opening quote: returns the
decoded content together with the text after the closing quote.  Strict
mode: a raw control character fails the parse. -/
def parseStrBody : List Char → Option (List Char × List Char)
  | [] => none
  | ch :: rest =>
    if ch = '"' then some ([], rest)
    else if ch = '\\' then
      match rest with
      | [] => none
      | e :: r =>
        if e = '"' then (parseStrBody r).map (fun p => ('"' :: p.1, p.2))
        else if e = '\\' then (parseStrBody r).map (fun p => ('\\' :: p.1, p.2))
        else if e = '/' then (parseStrBody r).map (fun p => ('/' :: p.1, p.2))
        else if e = 'b' then (parseStrBody r).map (fun p => ('\x08' :: p.1, p.2))
        else if e = 'f' then (parseStrBody r).map (fun p => ('\x0c' :: p.1, p.2))
        else if e = 'n' then (parseStrBody r).map (fun p => ('\n' :: p.1, p.2))
        else if e = 'r' then (parseStrBody r).map (fun p => ('\r' :: p.1, p.2))
        else if e = 't' then (parseStrBody r).map (fun p => ('\t' :: p.1, p.2))
        else if e = 'u' then
          match r with
          | h1 :: h2 :: h3 :: h4 :: r2 =>
            match hexVal h1, hexVal h2, hexVal h3, hexVal h4 with
            | some a, some b, some c, some d =>
                (parseStrBody r2).map
                  (fun p =>
                    (Char.ofNat (4096 * a + 256 * b + 16 * c + d) :: p.1, p.2))
            | _, _, _, _ => none
          | _ => none
        else none
    else if ch.toNat < 32 then none
    else (parseStrBody rest).map (fun p => (ch :: p.1, p.2))

/-- The maximal run of decimal digits at the head, and the rest. -/
def readDigits : List Char → List Char × List Char
  | [] => ([], [])
  | ch :: t =>
    if ch.isDigit then
      let p := readDigits t
      (ch :: p.1, p.2)
    else ([], ch :: t)

def digitsVal (ds : List Char) : Nat :=
  ds.foldl (fun a ch => 10 * a + (ch.toNat - 48)) 0

/-- The number token is accepted when it has no forbidden leading zero
(`NUMBER_RE`'s `0|[1-9]\d*`) and is not continued by a fraction or
exponent (floats are outside the model). -/
def numOk (ds r2 : List Char) : Bool :=
  (match ds with
   | d0 :: _ :: _ => d0 ≠ '0'
   | _ => true) &&
  (match r2 with
   | ch :: _ => ch ≠ '.' && ch ≠ 'e' && ch ≠ 'E'
   | [] => true)

/-- Insert into an association list with Python `dict` assignment
semantics: an existing key keeps its position and takes the new value. -/
def insertKV (acc : List (List Char × Json)) (k : List Char) (v : Json) :
    List (List Char × Json) :=
  match acc with
  | [] => (k, v) :: []
  | (k2, v2) :: t =>
    if k2 = k then (k2, v) :: t else (k2, v2) :: insertKV t k v

def collapseAux : List (List Char × Json) → List (List Char × Json) →
    List (List Char × Json)
  | acc, [] => acc
  | acc, (k, v) :: t => collapseAux (insertKV acc k v) t

/-- `dict(pairs)`: the decoder turns the parsed member list into a
dictionary (duplicate keys collapse, last value wins). -/
def objFromPairs (ps : List (List Char × Json)) : List (List Char × Json) :=
  collapseAux [] ps

mutual
/-- `scan_once` of `json.scanner.py_make_scanner`, with explicit fuel
bounding the recursion depth (each nested call consumes one unit; the
caller supplies more fuel than any input can use). -/
def parseVal : Nat → List Char → Option (Json × List Char)
  | 0, _ => none
  | fuel + 1, s =>
    match skipWsJ s with
    | [] => none
    | ch :: rest =>
      if ch = '"' then (parseStrBody rest).map (fun p => (Json.str p.1, p.2))
      else if ch = '{' then
        (let r2 := skipWsJ rest
         if r2.head? = some '}' then some (Json.obj [], r2.tail)
         else (parseMembers fuel r2).map
           (fun p => (Json.obj (objFromPairs p.1), p.2)))
      else if ch = '[' then
        (let r2 := skipWsJ rest
         if r2.head? = some ']' then some (Json.arr [], r2.tail)
         else (parseElems fuel r2).map (fun p => (Json.arr p.1, p.2)))
      else if ch = 'n' then
        (if ('u' :: 'l' :: 'l' :: []).isPrefixOf rest then
          some (.null, rest.drop 3) else none)
      else if ch = 't' then
        (if ('r' :: 'u' :: 'e' :: []).isPrefixOf rest then
          some (.bool true, rest.drop 3) else none)
      else if ch = 'f' then
        (if ('a' :: 'l' :: 's' :: 'e' :: []).isPrefixOf rest then
          some (.bool false, rest.drop 4) else none)
      else if ch = '-' then
        (let p := readDigits rest
         if p.1 = [] then none
         else if numOk p.1 p.2 then some (.num (-(digitsVal p.1 : Int)), p.2)
         else none)
      else if ch.isDigit then
        (let p := readDigits (ch :: rest)
         if numOk p.1 p.2 then some (.num (digitsVal p.1), p.2) else none)
      else none
/-- `JSONArray` after the opening bracket, first element not yet read
(the empty-array case is handled by the caller). -/
def parseElems : Nat → List Char → Option (List Json × List Char)
  | 0, _ => none
  | fuel + 1, s =>
    match parseVal fuel s with
    | none => none
    | some (v, r) =>
      let r2 := skipWsJ r
      if r2.head? = some ']' then some (v :: [], r2.tail)
      else if r2.head? = some ',' then
        (parseElems fuel r2.tail).map (fun p => (v :: p.1, p.2))
      else none
/-- `JSONObject` after the opening brace, first member not yet read
(the empty-object case is handled by the caller). -/
def parseMembers : Nat →
    List Char → Option (List (List Char × Json) × List Char)
  | 0, _ => none
  | fuel + 1, s =>
    match skipWsJ s with
    | [] => none
    | ch :: rest =>
      if ch = '"' then
        (match parseStrBody rest with
         | none => none
         | some (k, r) =>
           let r2 := skipWsJ r
           if r2.head? = some ':' then
             (match parseVal fuel r2.tail with
              | none => none
              | some (v, r3) =>
                let r4 := skipWsJ r3
                if r4.head? = some '}' then some ((k, v) :: [], r4.tail)
                else if r4.head? = some ',' then
                  (parseMembers fuel r4.tail).map
                    (fun p => ((k, v) :: p.1, p.2))
                else none)
           else none)
      else none
end

/-- `json.loads`: parse one document and require only whitespace after
it ("Extra data" otherwise).  The fuel is generous: every two units of
fuel consume at least one character of a successful parse. -/
def loads (s : List Char) : Option Json :=
  match parseVal (s.length + s.length + 2) s with
  | some (v, rest) => if skipWsJ rest = [] then some v else none
  | none => none

/-!
Round-trip: `loads (dumps v) = some v` for well-formed values (no
duplicate keys in any object, as for every value produced from a Python
`dict`).  The proofs work through the decimal printer, the string
escaper and a fuel-indexed induction over the three parsing functions.
-/

theorem natCharsAux_eq_digits :
    ∀ (n fuel : Nat) (acc : List Char), n ≤ fuel →
      natCharsAux fuel n acc =
        ((Nat.digits 10 n).reverse.map (fun d => Char.ofNat (48 + d))) ++ acc := by
  intro n
  induction n using Nat.strong_induction_on with
  | _ n ih =>
    intro fuel acc hle
    match fuel with
    | 0 =>
        have hn : n = 0 := by omega
        subst hn
        simp [natCharsAux]
    | fuel + 1 =>
        by_cases hn : n = 0
        · subst hn; simp [natCharsAux]
        · have hlt : n / 10 < n := Nat.div_lt_self (by omega) (by omega)
          have hle2 : n / 10 ≤ fuel := by omega
          have hstep : natCharsAux (fuel + 1) n acc =
              natCharsAux fuel (n / 10) (Char.ofNat (48 + n % 10) :: acc) := by
            simp [natCharsAux, hn]
          rw [hstep, ih (n / 10) hlt fuel _ hle2,
            Nat.digits_def' (b := 10) (by norm_num) (n := n) (by omega)]
          simp

theorem natChars_eq_digits (n : Nat) :
    natChars n = if n = 0 then '0' :: []
      else (Nat.digits 10 n).reverse.map (fun d => Char.ofNat (48 + d)) := by
  by_cases hn : n = 0
  · subst hn; simp [natChars]
  · simp only [natChars, hn, if_false]
    simpa using natCharsAux_eq_digits n n [] (Nat.le_refl n)

theorem dc_isDigit {d : Nat} (h : d < 10) :
    (Char.ofNat (48 + d)).isDigit = true := by
  interval_cases d <;> decide

theorem dc_toNat {d : Nat} (h : d < 10) :
    (Char.ofNat (48 + d)).toNat = 48 + d := by
  interval_cases d <;> decide

theorem dc_eq_zero {d : Nat} (h : d < 10) :
    Char.ofNat (48 + d) = '0' ↔ d = 0 := by
  interval_cases d <;> simp <;> decide

theorem natChars_all_digits (n : Nat) :
    ∀ ch ∈ natChars n, ch.isDigit = true := by
  intro ch hch
  rw [natChars_eq_digits] at hch
  by_cases hn : n = 0
  · simp [hn] at hch
    subst hch
    decide
  · simp [hn] at hch
    obtain ⟨d, hd, rfl⟩ := hch
    exact dc_isDigit (Nat.digits_lt_base (by norm_num) hd)

theorem natChars_ne_nil (n : Nat) : natChars n ≠ [] := by
  rw [natChars_eq_digits]
  by_cases hn : n = 0
  · simp [hn]
  · simp [hn, Nat.digits_ne_nil_iff_ne_zero]

/-- `readDigits` splits a run of digits from a non-digit continuation. -/
theorem readDigits_append (ds rest : List Char)
    (h : ∀ ch ∈ ds, ch.isDigit = true)
    (hr : (rest.head?.map Char.isDigit).getD false = false) :
    readDigits (ds ++ rest) = (ds, rest) := by
  induction ds with
  | nil =>
      match rest with
      | [] => rfl
      | ch :: t =>
          simp at hr
          simp [readDigits, hr]
  | cons ch t ih =>
      have hch : ch.isDigit = true := h ch (by simp)
      have ht : ∀ x ∈ t, x.isDigit = true := fun x hx => h x (by simp [hx])
      simp [readDigits, hch, ih ht]

theorem foldl_digits (L : List Nat) (a : Nat) (h : ∀ d ∈ L, d < 10) :
    (L.reverse.map (fun d => Char.ofNat (48 + d))).foldl
        (fun acc ch => 10 * acc + (ch.toNat - 48)) a =
      a * 10 ^ L.length + Nat.ofDigits 10 L := by
  induction L generalizing a with
  | nil => simp
  | cons d T ih =>
      have hd : d < 10 := h d (by simp)
      have hT : ∀ x ∈ T, x < 10 := fun x hx => h x (by simp [hx])
      rw [List.reverse_cons, List.map_append, List.foldl_append, ih a hT]
      simp only [List.map_cons, List.map_nil, List.foldl_cons, List.foldl_nil,
        dc_toNat hd, Nat.ofDigits_cons, List.length_cons]
      have : 48 + d - 48 = d := by omega
      rw [this]
      ring

theorem digitsVal_natChars (n : Nat) : digitsVal (natChars n) = n := by
  rw [natChars_eq_digits]
  by_cases hn : n = 0
  · simp [hn, digitsVal]
  · simp only [hn, if_false, digitsVal]
    have := foldl_digits (Nat.digits 10 n) 0
      (fun d hd => Nat.digits_lt_base (by norm_num) hd)
    rw [this, Nat.ofDigits_digits]
    simp

/-- The decimal printer never produces a forbidden leading zero. -/
theorem natChars_no_leading_zero (n : Nat) (ch : Char) (t : List Char)
    (h : natChars n = '0' :: ch :: t) : False := by
  rw [natChars_eq_digits] at h
  by_cases hn : n = 0
  · subst hn
    simp at h
  · simp only [hn, if_false] at h
    have hne : Nat.digits 10 n ≠ [] := Nat.digits_ne_nil_iff_ne_zero.mpr hn
    have hlast := Nat.getLast_digit_ne_zero 10 hn
    have hh : ((Nat.digits 10 n).reverse.map
        (fun d => Char.ofNat (48 + d))).head? = some '0' := by
      rw [h]; rfl
    rw [List.head?_map, List.head?_reverse] at hh
    rw [List.getLast?_eq_getLast _ hne] at hh
    simp only [Option.map_some'] at hh
    have hmem : (Nat.digits 10 n).getLast hne ∈ Nat.digits 10 n :=
      List.getLast_mem hne
    have hlt : (Nat.digits 10 n).getLast hne < 10 :=
      Nat.digits_lt_base (by norm_num) hmem
    have := (dc_eq_zero hlt).mp (by simpa using hh)
    exact hlast this

mutual
/-- Fuel sufficient to parse the serialisation of a value (one unit per
nested `parseVal`/`parseElems`/`parseMembers` call). -/
def jfuel : Json → Nat
  | .null | .bool _ | .num _ | .str _ => 1
  | .arr xs => 1 + jfuelElems xs
  | .obj kvs => 1 + jfuelMembers kvs
def jfuelElems : List Json → Nat
  | [] => 1
  | x :: t => 1 + max (jfuel x) (jfuelElems t)
def jfuelMembers : List (List Char × Json) → Nat
  | [] => 1
  | (_, v) :: t => 1 + max (jfuel v) (jfuelMembers t)
end

mutual
/-- Well-formedness: every object, at every depth, has pairwise distinct
keys — true of every value that comes from a Python `dict`. -/
def jwf : Json → Bool
  | .null | .bool _ | .num _ | .str _ => true
  | .arr xs => jwfElems xs
  | .obj kvs => decide ((kvs.map Prod.fst).Nodup) && jwfMembers kvs
def jwfElems : List Json → Bool
  | [] => true
  | x :: t => jwf x && jwfElems t
def jwfMembers : List (List Char × Json) → Bool
  | [] => true
  | (_, v) :: t => jwf v && jwfMembers t
end

/-- The characters that may legally follow a serialised value inside a
larger serialised document (or the end of text). -/
def sepHeadB : List Char → Bool
  | [] => true
  | ch :: _ => ch = ',' || ch = ']' || ch = '}'

theorem jfuel_pos (v : Json) : 1 ≤ jfuel v := by
  cases v <;> simp [jfuel] <;> omega

theorem jfuelElems_pos (xs : List Json) : 1 ≤ jfuelElems xs := by
  cases xs <;> simp [jfuelElems]

theorem jfuelMembers_pos (kvs : List (List Char × Json)) :
    1 ≤ jfuelMembers kvs := by
  match kvs with
  | [] => simp [jfuelMembers]
  | (k, v) :: t => simp [jfuelMembers]

theorem insertKV_not_mem (acc : List (List Char × Json)) (k : List Char)
    (v : Json) (h : ∀ p ∈ acc, p.1 ≠ k) :
    insertKV acc k v = acc ++ (k, v) :: [] := by
  induction acc with
  | nil => rfl
  | cons p t ih =>
      obtain ⟨k2, v2⟩ := p
      have hk : k2 ≠ k := h (k2, v2) (by simp)
      have ht : ∀ q ∈ t, q.1 ≠ k := fun q hq => h q (by simp [hq])
      simp [insertKV, hk, ih ht]

theorem collapseAux_disjoint (ps : List (List Char × Json)) :
    ∀ acc, (ps.map Prod.fst).Nodup →
      (∀ p ∈ acc, ∀ q ∈ ps, p.1 ≠ q.1) →
      collapseAux acc ps = acc ++ ps := by
  induction ps with
  | nil => intro acc _ _; simp [collapseAux]
  | cons q t ih =>
      intro acc hnd hdisj
      obtain ⟨k, v⟩ := q
      have hnd1 : (k :: List.map Prod.fst t).Nodup := by
        simpa only [List.map_cons] using hnd
      have hnd2 := List.nodup_cons.mp hnd1
      rw [collapseAux,
        insertKV_not_mem acc k v (fun p hp => hdisj p hp (k, v) (by simp)),
        ih (acc ++ (k, v) :: []) hnd2.2]
      · simp
      · intro p hp q2 hq2
        rcases List.mem_append.mp hp with hpacc | hpkv
        · exact hdisj p hpacc q2 (by simp [hq2])
        · have hpk : p = (k, v) := by simpa using hpkv
          subst hpk
          intro hcontra
          exact hnd2.1 (by
            have : q2.1 ∈ t.map Prod.fst := List.mem_map_of_mem Prod.fst hq2
            simpa [← hcontra] using this)

theorem objFromPairs_nodup (ps : List (List Char × Json))
    (h : (ps.map Prod.fst).Nodup) : objFromPairs ps = ps := by
  simpa using collapseAux_disjoint ps [] h (by simp)

/-- The characters a serialised value can start with. -/
def jsonHeadB (ch : Char) : Bool :=
  ch = '"' || ch = '{' || ch = '[' || ch = 'n' || ch = 't' || ch = 'f' ||
    ch = '-' || ch.isDigit

theorem natChars_head (x : Nat) :
    ∃ ch t, natChars x = ch :: t ∧ ch.isDigit = true := by
  have hne := natChars_ne_nil x
  have hall := natChars_all_digits x
  cases h : natChars x with
  | nil => exact absurd h hne
  | cons ch t => exact ⟨ch, t, rfl, hall ch (by simp [h])⟩

theorem dumps_cons (v : Json) :
    ∃ ch t2, dumps v = ch :: t2 ∧ jsonHeadB ch = true := by
  cases v with
  | null => exact ⟨'n', _, rfl, by decide⟩
  | bool b =>
      cases b
      · exact ⟨'f', _, rfl, by decide⟩
      · exact ⟨'t', _, rfl, by decide⟩
  | num n =>
      by_cases hn : n < 0
      · refine ⟨'-', natChars n.natAbs, ?_, by decide⟩
        simp [dumps, intChars, hn]
      · obtain ⟨ch, t, hEq, hd⟩ := natChars_head n.toNat
        refine ⟨ch, t, ?_, by simp [jsonHeadB, hd]⟩
        simp [dumps, intChars, hn, hEq]
  | str s => exact ⟨'"', _, rfl, by decide⟩
  | arr xs => exact ⟨'[', _, rfl, by decide⟩
  | obj kvs => exact ⟨'{', _, rfl, by decide⟩

theorem jsonHeadB_not_ws {ch : Char} (h : jsonHeadB ch = true) :
    ¬(ch = ' ' ∨ ch = '\t' ∨ ch = '\n' ∨ ch = '\r') := by
  rintro (rfl | rfl | rfl | rfl) <;> exact absurd h (by decide)

theorem jsonHeadB_ne_close {ch : Char} (h : jsonHeadB ch = true) :
    ch ≠ ']' ∧ ch ≠ '}' := by
  constructor <;> rintro rfl <;> exact absurd h (by decide)

theorem skipWsJ_cons_of {ch : Char} (l : List Char)
    (h : ¬(ch = ' ' ∨ ch = '\t' ∨ ch = '\n' ∨ ch = '\r')) :
    skipWsJ (ch :: l) = ch :: l := by
  simp [skipWsJ, h]

theorem skipWsJ_dumps (v : Json) (rest : List Char) :
    skipWsJ (dumps v ++ rest) = dumps v ++ rest := by
  obtain ⟨ch, t2, hEq, hhd⟩ := dumps_cons v
  rw [hEq]
  simp only [List.cons_append]
  exact skipWsJ_cons_of _ (jsonHeadB_not_ws hhd)

theorem skipWsJ_space (l : List Char) : skipWsJ (' ' :: l) = skipWsJ l := by
  simp [skipWsJ]

theorem parseVal_ws (fuel : Nat) (l : List Char) :
    parseVal fuel (' ' :: l) = parseVal fuel l := by
  cases fuel with
  | zero => rfl
  | succ f =>
      rw [parseVal.eq_def, parseVal.eq_def]
      simp only [skipWsJ_space]

theorem parseElems_ws (fuel : Nat) (l : List Char) :
    parseElems fuel (' ' :: l) = parseElems fuel l := by
  cases fuel with
  | zero => rfl
  | succ f =>
      rw [parseElems.eq_def, parseElems.eq_def]
      simp only [parseVal_ws]

theorem parseMembers_ws (fuel : Nat) (l : List Char) :
    parseMembers fuel (' ' :: l) = parseMembers fuel l := by
  cases fuel with
  | zero => rfl
  | succ f =>
      rw [parseMembers.eq_def, parseMembers.eq_def]
      simp only [skipWsJ_space]

theorem hexVal_hexDigitChar {k : Nat} (h : k < 16) :
    hexVal (hexDigitChar k) = some k := by
  interval_cases k <;> decide

/-- Un-escaping inverts the escaper: `py_scanstring` applied to an
escaped body followed by the closing quote recovers the original
characters. -/
theorem parseStrBody_escString (s rest : List Char) :
    parseStrBody (escString s ++ '"' :: rest) = some (s, rest) := by
  induction s with
  | nil =>
      simp only [escString, List.nil_append]
      rw [parseStrBody.eq_def]
      simp
  | cons ch t ih =>
    rw [escString, List.append_assoc]
    by_cases h1 : ch = '"'
    · subst h1
      rw [show escChar '"' = '\\' :: '"' :: [] from rfl]
      simp only [List.cons_append, List.nil_append]
      rw [parseStrBody.eq_def]
      simp only [Char.reduceEq, reduceIte, ih, Option.map_some']
    by_cases h2 : ch = '\\'
    · subst h2
      rw [show escChar '\\' = '\\' :: '\\' :: [] from rfl]
      simp only [List.cons_append, List.nil_append]
      rw [parseStrBody.eq_def]
      simp only [Char.reduceEq, reduceIte, ih, Option.map_some']
    by_cases h3 : ch = '\x08'
    · subst h3
      rw [show escChar '\x08' = '\\' :: 'b' :: [] from rfl]
      simp only [List.cons_append, List.nil_append]
      rw [parseStrBody.eq_def]
      simp only [Char.reduceEq, reduceIte, ih, Option.map_some']
    by_cases h4 : ch = '\t'
    · subst h4
      rw [show escChar '\t' = '\\' :: 't' :: [] from rfl]
      simp only [List.cons_append, List.nil_append]
      rw [parseStrBody.eq_def]
      simp only [Char.reduceEq, reduceIte, ih, Option.map_some']
    by_cases h5 : ch = '\n'
    · subst h5
      rw [show escChar '\n' = '\\' :: 'n' :: [] from rfl]
      simp only [List.cons_append, List.nil_append]
      rw [parseStrBody.eq_def]
      simp only [Char.reduceEq, reduceIte, ih, Option.map_some']
    by_cases h6 : ch = '\x0c'
    · subst h6
      rw [show escChar '\x0c' = '\\' :: 'f' :: [] from rfl]
      simp only [List.cons_append, List.nil_append]
      rw [parseStrBody.eq_def]
      simp only [Char.reduceEq, reduceIte, ih, Option.map_some']
    by_cases h7 : ch = '\r'
    · subst h7
      rw [show escChar '\r' = '\\' :: 'r' :: [] from rfl]
      simp only [List.cons_append, List.nil_append]
      rw [parseStrBody.eq_def]
      simp only [Char.reduceEq, reduceIte, ih, Option.map_some']
    by_cases h8 : ch.toNat < 32
    · have hesc : escChar ch = '\\' :: 'u' :: '0' :: '0' ::
          hexDigitChar (ch.toNat / 16) :: hexDigitChar (ch.toNat % 16) :: [] := by
        simp [escChar, h1, h2, h3, h4, h5, h6, h7, h8]
      have e0 : hexVal '0' = some 0 := rfl
      have e1 : hexVal (hexDigitChar (ch.toNat / 16)) =
          some (ch.toNat / 16) := hexVal_hexDigitChar (by omega)
      have e2 : hexVal (hexDigitChar (ch.toNat % 16)) =
          some (ch.toNat % 16) := hexVal_hexDigitChar (by omega)
      have harith : 4096 * 0 + 256 * 0 + 16 * (ch.toNat / 16) + ch.toNat % 16 =
          ch.toNat := by omega
      rw [hesc]
      simp only [List.cons_append, List.nil_append]
      rw [parseStrBody.eq_def]
      simp only [Char.reduceEq, reduceIte, e0, e1, e2, harith,
        Char.ofNat_toNat, ih, Option.map_some']
    · have hesc : escChar ch = ch :: [] := by
        simp [escChar, h1, h2, h3, h4, h5, h6, h7, h8]
      rw [hesc]
      simp only [List.cons_append, List.nil_append]
      rw [parseStrBody.eq_def]
      simp only [h1, h2, h8, reduceIte, if_neg, if_false, ih, Option.map_some']

theorem sep_not_digit {rest : List Char} (h : sepHeadB rest = true) :
    ((rest.head?.map Char.isDigit).getD false) = false := by
  cases rest with
  | nil => rfl
  | cons ch t =>
      have : ch = ',' ∨ ch = ']' ∨ ch = '}' := by
        simpa [sepHeadB, Bool.or_eq_true, or_assoc] using h
      rcases this with rfl | rfl | rfl <;> rfl

theorem readDigits_natChars (x : Nat) (rest : List Char)
    (h : sepHeadB rest = true) :
    readDigits (natChars x ++ rest) = (natChars x, rest) :=
  readDigits_append _ _ (natChars_all_digits x) (sep_not_digit h)

theorem numOk_natChars (x : Nat) {rest : List Char}
    (h : sepHeadB rest = true) : numOk (natChars x) rest = true := by
  unfold numOk
  rw [Bool.and_eq_true]
  constructor
  · cases hx : natChars x with
    | nil => rfl
    | cons ch t =>
        cases t with
        | nil => rfl
        | cons c2 t2 =>
            by_cases h0 : ch = '0'
            · subst h0
              exact absurd hx (fun hcontra =>
                natChars_no_leading_zero x c2 t2 hcontra)
            · simp [h0]
  · cases rest with
    | nil => rfl
    | cons ch t =>
        have : ch = ',' ∨ ch = ']' ∨ ch = '}' := by
          simpa [sepHeadB, Bool.or_eq_true, or_assoc] using h
        rcases this with rfl | rfl | rfl <;> rfl

theorem digit_not_special {ch : Char} (h : ch.isDigit = true) :
    ch ≠ '"' ∧ ch ≠ '{' ∧ ch ≠ '[' ∧ ch ≠ 'n' ∧ ch ≠ 't' ∧ ch ≠ 'f' ∧
      ch ≠ '-' := by
  refine ⟨?_, ?_, ?_, ?_, ?_, ?_, ?_⟩ <;> rintro rfl <;>
    exact absurd h (by decide)

/-- The parser bundle: on serialisations of well-formed values, each of
the three mutual parsing functions recovers exactly the value it was
given, leaving the trailing text untouched. -/
theorem parse_dumps_bundle (fuel : Nat) :
    (∀ v rest, jwf v = true → jfuel v ≤ fuel → sepHeadB rest = true →
       parseVal fuel (dumps v ++ rest) = some (v, rest)) ∧
    (∀ xs rest, xs ≠ [] → jwfElems xs = true → jfuelElems xs ≤ fuel →
       parseElems fuel (dumpsElems xs ++ ']' :: rest) = some (xs, rest)) ∧
    (∀ kvs rest, kvs ≠ [] → jwfMembers kvs = true → jfuelMembers kvs ≤ fuel →
       parseMembers fuel (dumpsMembers kvs ++ '}' :: rest) =
         some (kvs, rest)) := by
  induction fuel using Nat.strong_induction_on with
  | _ fuel ih =>
    match fuel with
    | 0 =>
        refine ⟨?_, ?_, ?_⟩
        · intro v rest _ hfl _
          exact absurd hfl (by have := jfuel_pos v; omega)
        · intro xs rest _ _ hfl
          exact absurd hfl (by have := jfuelElems_pos xs; omega)
        · intro kvs rest _ _ hfl
          exact absurd hfl (by have := jfuelMembers_pos kvs; omega)
    | f + 1 =>
        have ihv := (ih f (by omega)).1
        have ihe := (ih f (by omega)).2.1
        have ihm := (ih f (by omega)).2.2
        refine ⟨?_, ?_, ?_⟩
        · intro v rest hwf hfl hsep
          cases v with
          | null =>
              rw [show dumps Json.null ++ rest =
                    'n' :: 'u' :: 'l' :: 'l' :: rest from rfl,
                parseVal.eq_2, skipWsJ_cons_of _ (by decide)]
              simp [Char.reduceEq, reduceIte, List.isPrefixOf]
          | bool b =>
              cases b
              · rw [show dumps (Json.bool false) ++ rest =
                      'f' :: 'a' :: 'l' :: 's' :: 'e' :: rest from rfl,
                  parseVal.eq_2, skipWsJ_cons_of _ (by decide)]
                simp [Char.reduceEq, reduceIte, List.isPrefixOf]
              · rw [show dumps (Json.bool true) ++ rest =
                      't' :: 'r' :: 'u' :: 'e' :: rest from rfl,
                  parseVal.eq_2, skipWsJ_cons_of _ (by decide)]
                simp [Char.reduceEq, reduceIte, List.isPrefixOf]
          | num n =>
              by_cases hn : n < 0
              · have hshape : dumps (Json.num n) ++ rest =
                    '-' :: (natChars n.natAbs ++ rest) := by
                  simp [dumps, intChars, hn]
                rw [hshape, parseVal.eq_2, skipWsJ_cons_of _ (by decide)]
                simp only [Char.reduceEq, reduceIte,
                  readDigits_natChars n.natAbs rest hsep]
                rw [if_neg (by simpa using natChars_ne_nil n.natAbs),
                  if_pos (by simpa using numOk_natChars n.natAbs hsep)]
                have hval : -((digitsVal (natChars n.natAbs) : Int)) = n := by
                  rw [digitsVal_natChars]
                  omega
                simp [hval]
              · obtain ⟨ch, t, hx, hd⟩ := natChars_head n.toNat
                obtain ⟨g1, g2, g3, g4, g5, g6, g7⟩ := digit_not_special hd
                have hshape : dumps (Json.num n) ++ rest =
                    ch :: (t ++ rest) := by
                  simp [dumps, intChars, hn, hx]
                rw [hshape, parseVal.eq_2,
                  skipWsJ_cons_of _ (by
                    rintro (rfl | rfl | rfl | rfl) <;>
                      exact absurd hd (by decide))]
                simp only [g1, g2, g3, g4, g5, g6, g7, reduceIte, if_neg,
                  if_false, hd, if_true]
                rw [show ch :: (t ++ rest) = natChars n.toNat ++ rest by
                  rw [hx]; rfl]
                simp only [readDigits_natChars n.toNat rest hsep]
                rw [if_pos (by simpa using numOk_natChars n.toNat hsep)]
                have hval : ((digitsVal (natChars n.toNat) : Int)) = n := by
                  rw [digitsVal_natChars]
                  omega
                simp [hval]
          | str s2 =>
              have hshape : dumps (Json.str s2) ++ rest =
                  '"' :: (escString s2 ++ '"' :: rest) := by
                simp [dumps, dumpsStr]
              rw [hshape, parseVal.eq_2, skipWsJ_cons_of _ (by decide)]
              simp only [Char.reduceEq, reduceIte, parseStrBody_escString,
                Option.map_some']
          | arr xs =>
              cases xs with
              | nil =>
                  rw [show dumps (Json.arr []) ++ rest =
                        '[' :: ']' :: rest from rfl,
                    parseVal.eq_2, skipWsJ_cons_of _ (by decide)]
                  simp only [Char.reduceEq, reduceIte]
                  rw [skipWsJ_cons_of _ (by decide)]
                  simp
              | cons x t =>
                  obtain ⟨ch, t2, hx, hhd⟩ := dumps_cons x
                  have hM : ∃ M, dumpsElems (x :: t) = ch :: M := by
                    cases t with
                    | nil => exact ⟨t2, by simp [dumpsElems, hx]⟩
                    | cons y t3 =>
                        exact ⟨t2 ++ ',' :: ' ' :: dumpsElems (y :: t3),
                          by simp [dumpsElems, hx]⟩
                  obtain ⟨M, hM⟩ := hM
                  have hwfE : jwfElems (x :: t) = true := by
                    simpa [jwf] using hwf
                  have hflE : jfuelElems (x :: t) ≤ f := by
                    simp [jfuel] at hfl
                    omega
                  have hshape : dumps (Json.arr (x :: t)) ++ rest =
                      '[' :: (dumpsElems (x :: t) ++ (']' :: rest)) := by
                    simp [dumps]
                  rw [hshape, parseVal.eq_2, skipWsJ_cons_of _ (by decide)]
                  simp only [Char.reduceEq, reduceIte]
                  rw [hM]
                  simp only [List.cons_append]
                  rw [skipWsJ_cons_of _ (jsonHeadB_not_ws hhd)]
                  have hne1 : ((ch :: (M ++ ']' :: rest)).head? =
                      some ']') = False := by
                    simp [(jsonHeadB_ne_close hhd).1]
                  simp only [hne1, if_false]
                  rw [show ch :: (M ++ ']' :: rest) =
                        dumpsElems (x :: t) ++ ']' :: rest by
                    rw [hM]; simp]
                  rw [ihe (x :: t) rest (by simp) hwfE hflE]
                  rfl
          | obj kvs =>
              cases kvs with
              | nil =>
                  rw [show dumps (Json.obj []) ++ rest =
                        '{' :: '}' :: rest from rfl,
                    parseVal.eq_2, skipWsJ_cons_of _ (by decide)]
                  simp only [Char.reduceEq, reduceIte]
                  rw [skipWsJ_cons_of _ (by decide)]
                  simp
              | cons kv t =>
                  obtain ⟨k, v2⟩ := kv
                  have h2 := hwf
                  simp only [jwf, Bool.and_eq_true, decide_eq_true_eq] at h2
                  have hnodup : (((k, v2) :: t).map Prod.fst).Nodup := h2.1
                  have hwfM : jwfMembers ((k, v2) :: t) = true := h2.2
                  have hflM : jfuelMembers ((k, v2) :: t) ≤ f := by
                    simp [jfuel] at hfl
                    omega
                  have hMhead : ∃ M, dumpsMembers ((k, v2) :: t) =
                      '"' :: M := by
                    cases t with
                    | nil =>
                        exact ⟨escString k ++ '"' :: ':' :: ' ' :: dumps v2,
                          by simp [dumpsMembers, dumpsStr]⟩
                    | cons m t3 =>
                        exact ⟨escString k ++ '"' :: ':' :: ' ' ::
                            (dumps v2 ++ ',' :: ' ' :: dumpsMembers (m :: t3)),
                          by simp [dumpsMembers, dumpsStr]⟩
                  obtain ⟨M, hM⟩ := hMhead
                  have hshape : dumps (Json.obj ((k, v2) :: t)) ++ rest =
                      '{' :: (dumpsMembers ((k, v2) :: t) ++ ('}' :: rest)) := by
                    simp [dumps]
                  rw [hshape, parseVal.eq_2, skipWsJ_cons_of _ (by decide)]
                  simp only [Char.reduceEq, reduceIte]
                  rw [hM]
                  simp only [List.cons_append]
                  rw [skipWsJ_cons_of _ (by decide)]
                  have hne1 : (('"' :: (M ++ '}' :: rest)).head? =
                      some '}') = False := by
                    simp
                  simp only [hne1, if_false]
                  rw [show '"' :: (M ++ '}' :: rest) =
                        dumpsMembers ((k, v2) :: t) ++ '}' :: rest by
                    rw [hM]; simp]
                  rw [ihm ((k, v2) :: t) rest (by simp) hwfM hflM]
                  simp [objFromPairs_nodup _ hnodup]
        · intro xs rest hne hwfE hflE
          match xs with
          | [] => exact absurd rfl hne
          | x :: t =>
            have hwx : jwf x = true ∧ jwfElems t = true := by
              simpa [jwfElems, Bool.and_eq_true] using hwfE
            have hmax : max (jfuel x) (jfuelElems t) ≤ f := by
              simp [jfuelElems] at hflE
              omega
            have hfx := Nat.max_le.mp hmax
            cases t with
            | nil =>
                rw [show dumpsElems (x :: []) ++ ']' :: rest =
                      dumps x ++ (']' :: rest) by simp [dumpsElems],
                  parseElems.eq_2,
                  ihv x (']' :: rest) hwx.1 hfx.1 (by rfl)]
                try simp only []
                rw [skipWsJ_cons_of _ (by decide)]
                simp
            | cons y t3 =>
                rw [show dumpsElems (x :: y :: t3) ++ ']' :: rest =
                      dumps x ++ (',' :: ' ' ::
                        (dumpsElems (y :: t3) ++ ']' :: rest)) by
                    simp [dumpsElems],
                  parseElems.eq_2,
                  ihv x _ hwx.1 hfx.1 (by rfl)]
                try simp only []
                rw [skipWsJ_cons_of _ (by decide)]
                simp only [List.head?_cons, List.tail_cons,
                  Option.some.injEq, Char.reduceEq, if_false, if_true,
                  reduceIte]
                rw [parseElems_ws, ihe (y :: t3) rest (by simp) hwx.2 hfx.2]
                rfl
        · intro kvs rest hne hwfM hflM
          match kvs with
          | [] => exact absurd rfl hne
          | (k, v2) :: t =>
            have hwx : jwf v2 = true ∧ jwfMembers t = true := by
              simpa [jwfMembers, Bool.and_eq_true] using hwfM
            have hmax : max (jfuel v2) (jfuelMembers t) ≤ f := by
              simp [jfuelMembers] at hflM
              omega
            have hfx := Nat.max_le.mp hmax
            cases t with
            | nil =>
                rw [show dumpsMembers ((k, v2) :: []) ++ '}' :: rest =
                      '"' :: (escString k ++ '"' ::
                        (':' :: ' ' :: (dumps v2 ++ '}' :: rest))) by
                    simp [dumpsMembers, dumpsStr],
                  parseMembers.eq_2, skipWsJ_cons_of _ (by decide)]
                simp only [Char.reduceEq, reduceIte, parseStrBody_escString]
                try simp only []
                rw [skipWsJ_cons_of _ (by decide)]
                simp only [List.head?_cons, List.tail_cons,
                  Option.some.injEq, Char.reduceEq, if_false, if_true,
                  reduceIte]
                rw [parseVal_ws, ihv v2 _ hwx.1 hfx.1 (by rfl)]
                try simp only []
                rw [skipWsJ_cons_of _ (by decide)]
                simp only [List.head?_cons, List.tail_cons,
                  Option.some.injEq, Char.reduceEq, if_false, if_true,
                  reduceIte]
            | cons m t3 =>
                rw [show dumpsMembers ((k, v2) :: m :: t3) ++ '}' :: rest =
                      '"' :: (escString k ++ '"' ::
                        (':' :: ' ' :: (dumps v2 ++ ',' :: ' ' ::
                          (dumpsMembers (m :: t3) ++ '}' :: rest)))) by
                    simp [dumpsMembers, dumpsStr],
                  parseMembers.eq_2, skipWsJ_cons_of _ (by decide)]
                simp only [Char.reduceEq, reduceIte, parseStrBody_escString]
                try simp only []
                rw [skipWsJ_cons_of _ (by decide)]
                simp only [List.head?_cons, List.tail_cons,
                  Option.some.injEq, Char.reduceEq, if_false, if_true,
                  reduceIte]
                rw [parseVal_ws, ihv v2 _ hwx.1 hfx.1 (by rfl)]
                try simp only []
                rw [skipWsJ_cons_of _ (by decide)]
                simp only [List.head?_cons, List.tail_cons,
                  Option.some.injEq, Char.reduceEq, if_false, if_true,
                  reduceIte]
                rw [parseMembers_ws,
                  ihm (m :: t3) rest (by simp) hwx.2 hfx.2]
                rfl

theorem dumps_len_pos (v : Json) : 1 ≤ (dumps v).length := by
  obtain ⟨ch, t2, hEq, _⟩ := dumps_cons v
  simp [hEq]

theorem jsize_pos (v : Json) : 1 ≤ jsize v := by
  cases v <;> simp [jsize] <;> omega

/-- The fuel needed to parse a serialisation is bounded by its length
(so the generous fuel supplied by `loads` always suffices). -/
theorem jsize_bound (n : Nat) :
    (∀ v, jsize v ≤ n → jfuel v ≤ (dumps v).length) ∧
    (∀ xs, jsizeElems xs ≤ n → jfuelElems xs ≤ (dumpsElems xs).length + 1) ∧
    (∀ kvs, jsizeMembers kvs ≤ n →
      jfuelMembers kvs ≤ (dumpsMembers kvs).length + 1) := by
  induction n using Nat.strong_induction_on with
  | _ n ih =>
    refine ⟨?_, ?_, ?_⟩
    · intro v hsz
      cases v with
      | null => simp [jfuel, dumps]
      | bool b => cases b <;> simp [jfuel, dumps]
      | num m =>
          have := dumps_len_pos (Json.num m)
          simp only [jfuel]
          omega
      | str s2 =>
          have := dumps_len_pos (Json.str s2)
          simp only [jfuel]
          omega
      | arr xs =>
          have hn : 1 ≤ n := le_trans (jsize_pos _) hsz
          have hszE : jsizeElems xs ≤ n - 1 := by
            simp [jsize] at hsz
            omega
          have hE := (ih (n - 1) (by omega)).2.1 xs hszE
          have hL : (dumps (Json.arr xs)).length =
              (dumpsElems xs).length + 2 := by
            simp [dumps]
          simp only [jfuel]
          omega
      | obj kvs =>
          have hn : 1 ≤ n := le_trans (jsize_pos _) hsz
          have hszM : jsizeMembers kvs ≤ n - 1 := by
            simp [jsize] at hsz
            omega
          have hM := (ih (n - 1) (by omega)).2.2 kvs hszM
          have hL : (dumps (Json.obj kvs)).length =
              (dumpsMembers kvs).length + 2 := by
            simp [dumps]
          simp only [jfuel]
          omega
    · intro xs hsz
      cases xs with
      | nil => simp [jfuelElems, dumpsElems]
      | cons x t =>
          have hn : 1 ≤ n := by
            simp [jsizeElems] at hsz
            omega
          have hszx : jsize x ≤ n - 1 := by
            simp [jsizeElems] at hsz
            omega
          have hszt : jsizeElems t ≤ n - 1 := by
            have := jsize_pos x
            simp [jsizeElems] at hsz
            omega
          have hx := (ih (n - 1) (by omega)).1 x hszx
          have ht := (ih (n - 1) (by omega)).2.1 t hszt
          have hpos := dumps_len_pos x
          cases t with
          | nil =>
              have hL : (dumpsElems (x :: [])).length = (dumps x).length := by
                simp [dumpsElems]
              have hm : max (jfuel x) (jfuelElems []) ≤ (dumps x).length := by
                refine Nat.max_le.mpr ⟨hx, ?_⟩
                simp [jfuelElems]
                omega
              rw [show jfuelElems (x :: []) =
                1 + max (jfuel x) (jfuelElems []) from rfl]
              omega
          | cons y t3 =>
              have hL : (dumpsElems (x :: y :: t3)).length =
                  (dumps x).length + 2 + (dumpsElems (y :: t3)).length := by
                simp [dumpsElems]
                omega
              have hm : max (jfuel x) (jfuelElems (y :: t3)) ≤
                  (dumps x).length + (dumpsElems (y :: t3)).length + 1 := by
                refine Nat.max_le.mpr ⟨by omega, by
                  have := ht
                  omega⟩
              rw [show jfuelElems (x :: y :: t3) =
                1 + max (jfuel x) (jfuelElems (y :: t3)) from rfl]
              omega
    · intro kvs hsz
      cases kvs with
      | nil => simp [jfuelMembers, dumpsMembers]
      | cons kv t =>
          obtain ⟨k, v2⟩ := kv
          have hn : 1 ≤ n := by
            simp [jsizeMembers] at hsz
            omega
          have hszx : jsize v2 ≤ n - 1 := by
            simp [jsizeMembers] at hsz
            omega
          have hszt : jsizeMembers t ≤ n - 1 := by
            have := jsize_pos v2
            simp [jsizeMembers] at hsz
            omega
          have hx := (ih (n - 1) (by omega)).1 v2 hszx
          have ht := (ih (n - 1) (by omega)).2.2 t hszt
          have hpos := dumps_len_pos v2
          cases t with
          | nil =>
              have hL : (dumpsMembers ((k, v2) :: [])).length =
                  (dumpsStr k).length + 2 + (dumps v2).length := by
                simp [dumpsMembers]
                omega
              have hm : max (jfuel v2) (jfuelMembers []) ≤
                  (dumps v2).length := by
                refine Nat.max_le.mpr ⟨hx, ?_⟩
                simp [jfuelMembers]
                omega
              rw [show jfuelMembers ((k, v2) :: []) =
                1 + max (jfuel v2) (jfuelMembers []) from rfl]
              omega
          | cons m t3 =>
              have hL : (dumpsMembers ((k, v2) :: m :: t3)).length =
                  (dumpsStr k).length + 2 + (dumps v2).length + 2 +
                    (dumpsMembers (m :: t3)).length := by
                simp [dumpsMembers]
                omega
              have hm : max (jfuel v2) (jfuelMembers (m :: t3)) ≤
                  (dumps v2).length + (dumpsMembers (m :: t3)).length + 1 := by
                refine Nat.max_le.mpr ⟨by omega, by omega⟩
              rw [show jfuelMembers ((k, v2) :: m :: t3) =
                1 + max (jfuel v2) (jfuelMembers (m :: t3)) from rfl]
              omega

/-- Round-trip: `json.loads` inverts `json.dumps` on every well-formed
value. -/
theorem loads_dumps (v : Json) (h : jwf v = true) :
    loads (dumps v) = some v := by
  have hsize := (jsize_bound (jsize v)).1 v (Nat.le_refl _)
  have hfl : jfuel v ≤ (dumps v).length + (dumps v).length + 2 := by omega
  have hmain := (parse_dumps_bundle
    ((dumps v).length + (dumps v).length + 2)).1 v [] h hfl (by rfl)
  rw [show dumps v ++ ([] : List Char) = dumps v from by simp] at hmain
  rw [loads, hmain]
  rfl

/-- A successfully parsed document whose first character is `[` is an
array (the scanner dispatches on the first character). -/
theorem loads_bracket_arr (t : List Char) (v : Json)
    (h : loads ('[' :: t) = some v) : ∃ xs, v = Json.arr xs := by
  rw [loads] at h
  rw [show ('[' :: t).length + ('[' :: t).length + 2 =
      (t.length + t.length + 3) + 1 from by
    simp only [List.length_cons]
    omega] at h
  rw [parseVal.eq_2, skipWsJ_cons_of _ (by decide)] at h
  simp only [Char.reduceEq, reduceIte] at h
  by_cases hh : (skipWsJ t).head? = some ']'
  · rw [if_pos hh] at h
    try simp only [] at h
    by_cases h2 : skipWsJ (skipWsJ t).tail = []
    · rw [if_pos h2] at h
      injection h with h3
      exact ⟨[], h3.symm⟩
    · rw [if_neg h2] at h
      exact absurd h (by simp)
  · rw [if_neg hh] at h
    cases hE : parseElems (t.length + t.length + 3) (skipWsJ t) with
    | none =>
        rw [hE] at h
        simp at h
    | some p =>
        rw [hE] at h
        simp only [Option.map_some'] at h
        try simp only [] at h
        by_cases h2 : skipWsJ p.2 = []
        · rw [if_pos h2] at h
          injection h with h3
          exact ⟨p.1, h3.symm⟩
        · rw [if_neg h2] at h
          exact absurd h (by simp)

/-- A successfully parsed document whose first character is `{` is an
object. -/
theorem loads_brace_obj (t : List Char) (v : Json)
    (h : loads ('{' :: t) = some v) : ∃ kvs, v = Json.obj kvs := by
  rw [loads] at h
  rw [show ('{' :: t).length + ('{' :: t).length + 2 =
      (t.length + t.length + 3) + 1 from by
    simp only [List.length_cons]
    omega] at h
  rw [parseVal.eq_2, skipWsJ_cons_of _ (by decide)] at h
  simp only [Char.reduceEq, reduceIte] at h
  by_cases hh : (skipWsJ t).head? = some '}'
  · rw [if_pos hh] at h
    try simp only [] at h
    by_cases h2 : skipWsJ (skipWsJ t).tail = []
    · rw [if_pos h2] at h
      injection h with h3
      exact ⟨[], h3.symm⟩
    · rw [if_neg h2] at h
      exact absurd h (by simp)
  · rw [if_neg hh] at h
    cases hE : parseMembers (t.length + t.length + 3) (skipWsJ t) with
    | none =>
        rw [hE] at h
        simp at h
    | some p =>
        rw [hE] at h
        simp only [Option.map_some'] at h
        try simp only [] at h
        by_cases h2 : skipWsJ p.2 = []
        · rw [if_pos h2] at h
          injection h with h3
          exact ⟨objFromPairs p.1, h3.symm⟩
        · rw [if_neg h2] at h
          exact absurd h (by simp)

theorem scanLoop_ge (o c : Char) : ∀ (l : List Char) (i : Nat) (st : ScanSt)
    (j : Nat), scanLoop o c l i st = some j → i ≤ j := by
  intro l
  induction l with
  | nil =>
      intro i st j h
      exact absurd h (by simp [scanLoop])
  | cons ch rest ih =>
      intro i st j h
      simp only [scanLoop] at h
      split_ifs at h
      all_goals first
        | (injection h with hj; omega)
        | (have hge := ih (i + 1) _ j h; omega)

/-- A span successfully returned by the scanner starts with the opening
character. -/
theorem extractBalanced_head (s : List Char) (o c : Char) (start : Nat)
    (span : List Char) (e : Nat)
    (h : extractBalanced s o c start = .ok (span, e)) :
    ∃ t2, span = o :: t2 := by
  rw [extractBalanced] at h
  split at h
  case isFalse => exact absurd h (by simp)
  case isTrue hlt =>
    split at h
    case isTrue => exact absurd h (by simp)
    case isFalse hgo =>
      cases hscan : scanLoop o c (s.drop start) start ⟨0, false, ' ', false⟩ with
      | none =>
          rw [hscan] at h
          exact absurd h (by simp)
      | some j =>
          rw [hscan] at h
          injection h with h1
          injection h1 with hspan hend
          have hge : start ≤ j := scanLoop_ge o c _ start _ j hscan
          have hdrop : s.drop start = s.get ⟨start, hlt⟩ :: s.drop (start + 1) := by
            rw [List.get_eq_getElem]
            exact List.drop_eq_getElem_cons hlt
          have hget : s.get ⟨start, hlt⟩ = o := by
            by_contra hc
            exact hgo hc
          rw [hdrop, hget] at hspan
          rw [show j + 1 - start = (j - start) + 1 from by omega] at hspan
          rw [List.take_succ_cons] at hspan
          exact ⟨_, hspan.symm⟩

/-- Python `sub in s` (substring containment). -/
def containsSub (pat : List Char) : List Char → Bool
  | [] => pat.isPrefixOf []
  | s :: tail => pat.isPrefixOf (s :: tail) || containsSub pat tail

/-- Errors of `load_plot_json_from_html`: the no-call precheck
(`ValueError("No Plotly.newPlot call found in {path}")`), a propagated
locator error, and `json.JSONDecodeError` from the mandatory data or
layout parse. -/
inductive LoadErr where
  | noCall
  | loc (e : LocErr)
  | jsonDecode
deriving DecidableEq, Repr

/-- The loader's result: the dict
`{"data": list, "layout": dict, "config"?: dict}`. -/
structure ChartRecord where
  data : Json
  layout : Json
  config : Option Json

/-- `load_plot_json_from_html`, applied to the text of one HTML file:
check that the call name occurs at all, locate the call's arguments,
parse data and layout (mandatory), and attach the config only when its
substring is non-empty, decodes, and is a dict (best effort: a decode
failure or a non-dict result is silently dropped). -/
def load_plot_json_from_html (html : List Char) : Except LoadErr ChartRecord :=
  if ¬ containsSub ("Plotly.newPlot".toList) html then .error .noCall
  else
    match extractPlotlyCallArgs html with
    | .error e => .error (.loc e)
    | .ok args =>
      match loads args.dataStr with
      | none => .error .jsonDecode
      | some dataV =>
        match loads args.layoutStr with
        | none => .error .jsonDecode
        | some layoutV =>
          let config : Option Json :=
            match args.configStr with
            | none => none
            | some cs =>
              if cs = [] then none
              else
                match loads cs with
                | some (Json.obj kvs) => some (Json.obj kvs)
                | _ => none
          .ok ⟨dataV, layoutV, config⟩

/-- When the locator succeeds, the data substring starts with `[` and
the layout substring with `{` (each is a span returned by the scanner
for that opening character). -/
theorem extractCallArgs_strs (pat s : List Char) (args : CallArgs)
    (h : extractCallArgs pat s = .ok args) :
    (∃ t, args.dataStr = '[' :: t) ∧ ∃ t, args.layoutStr = '{' :: t := by
  unfold extractCallArgs at h
  cases h1 : searchCall pat s 0 with
  | none => rw [h1] at h; exact absurd h (by simp)
  | some e =>
  rw [h1] at h
  try simp only [] at h
  cases h2 : findCharFrom s ',' e with
  | none => rw [h2] at h; exact absurd h (by simp)
  | some firstComma =>
  rw [h2] at h
  try simp only [] at h
  cases h3 : findCharFrom s '[' (firstComma + 1) with
  | none => rw [h3] at h; exact absurd h (by simp)
  | some dataStart =>
  rw [h3] at h
  try simp only [] at h
  cases h4 : extractBalanced s '[' ']' dataStart with
  | error se => rw [h4] at h; exact absurd h (by simp)
  | ok pr =>
  obtain ⟨dataStr, afterData⟩ := pr
  rw [h4] at h
  try simp only [] at h
  cases h5 : findCharFrom s '{' afterData with
  | none => rw [h5] at h; exact absurd h (by simp)
  | some layoutStart =>
  rw [h5] at h
  try simp only [] at h
  cases h6 : extractBalanced s '{' '}' layoutStart with
  | error se => rw [h6] at h; exact absurd h (by simp)
  | ok pr2 =>
  obtain ⟨layoutStr, afterLayout⟩ := pr2
  rw [h6] at h
  try simp only [] at h
  have hd := extractBalanced_head s '[' ']' dataStart dataStr afterData h4
  have hl := extractBalanced_head s '{' '}' layoutStart layoutStr afterLayout h6
  cases h7 : findCharFrom s '(' (e - 1) with
  | none => rw [h7] at h; exact absurd h (by simp)
  | some parenOpen =>
  rw [h7] at h
  try simp only [] at h
  cases h8 : extractBalanced s '(' ')' parenOpen with
  | error se => rw [h8] at h; exact absurd h (by simp)
  | ok pr3 =>
  obtain ⟨cp, callEnd⟩ := pr3
  rw [h8] at h
  try simp only [] at h
  cases h9 : findCharFrom s '{' afterLayout with
  | none =>
      rw [h9] at h
      try simp only [] at h
      injection h with h10
      rw [← h10]
      exact ⟨hd, hl⟩
  | some bracePos =>
  rw [h9] at h
  try simp only [] at h
  by_cases h11 : bracePos < callEnd
  · rw [if_pos h11] at h
    cases h12 : extractBalanced s '{' '}' bracePos with
    | error se => rw [h12] at h; exact absurd h (by simp)
    | ok pr4 =>
        obtain ⟨configStr, afterConfig⟩ := pr4
        rw [h12] at h
        try simp only [] at h
        injection h with h13
        rw [← h13]
        exact ⟨hd, hl⟩
  · rw [if_neg h11] at h
    injection h with h13
    rw [← h13]
    exact ⟨hd, hl⟩

/-- C4: whenever the loader succeeds, the record's data is a JSON
array, its layout is a JSON object, and the config field is present
exactly when the located options substring was present, non-empty, and
decoded to a JSON object (a decode failure or a non-object result
silently omits the field without failing the load). -/
theorem c4_loader_record_invariants (html : List Char) (r : ChartRecord)
    (h : load_plot_json_from_html html = .ok r) :
    (∃ xs, r.data = Json.arr xs) ∧ (∃ kvs, r.layout = Json.obj kvs) ∧
    ∃ args, extractPlotlyCallArgs html = .ok args ∧
      (∀ cfg, r.config = some cfg ↔
        ∃ cs kvs, args.configStr = some cs ∧ cs ≠ [] ∧
          loads cs = some (Json.obj kvs) ∧ cfg = Json.obj kvs) := by
  unfold load_plot_json_from_html at h
  split at h
  case isTrue => exact absurd h (by simp)
  case isFalse =>
  cases hargs : extractPlotlyCallArgs html with
  | error e => rw [hargs] at h; exact absurd h (by simp)
  | ok args =>
  rw [hargs] at h
  try simp only [] at h
  cases hds : loads args.dataStr with
  | none => rw [hds] at h; exact absurd h (by simp)
  | some dataV =>
  rw [hds] at h
  try simp only [] at h
  cases hls : loads args.layoutStr with
  | none => rw [hls] at h; exact absurd h (by simp)
  | some layoutV =>
  rw [hls] at h
  try simp only [] at h
  injection h with h2
  obtain ⟨⟨td, hdEq⟩, ⟨tl, hlEq⟩⟩ :=
    extractCallArgs_strs ("Plotly.newPlot".toList) html args hargs
  refine ⟨?_, ?_, args, rfl, ?_⟩
  · rw [← h2]
    exact loads_bracket_arr td dataV (hdEq ▸ hds)
  · rw [← h2]
    exact loads_brace_obj tl layoutV (hlEq ▸ hls)
  · intro cfg
    rw [← h2]
    cases hcs : args.configStr with
    | none => simp
    | some cs =>
        by_cases hemp : cs = []
        · subst hemp
          simp
        · simp only [hemp, if_neg, if_false]
          cases hload : loads cs with
          | none => simp [hload, hemp]
          | some w =>
              cases w with
              | obj kvs =>
                  simp only []
                  constructor
                  · intro hc
                    injection hc with hc2
                    exact ⟨cs, kvs, rfl, hemp, hload, hc2.symm⟩
                  · rintro ⟨cs2, kvs2, hcs2, _, hload2, rfl⟩
                    injection hcs2 with hcs3
                    subst hcs3
                    rw [hload] at hload2
                    injection hload2 with hw
                    rw [hw]
              | null => simp [hload, hemp]
              | bool b => simp [hload, hemp]
              | num m => simp [hload, hemp]
              | str s2 => simp [hload, hemp]
              | arr xs => simp [hload, hemp]

/-- Witness for C4 at a concrete document with a parsable object
config: the loader returns an array data field, an object layout field,
and a present config. -/
theorem c4_witness :
    load_plot_json_from_html
        ("Plotly.newPlot(gd, [1], \x7b\x7d, \x7b\"a\": 2\x7d);".toList) =
      .ok ⟨Json.arr [Json.num 1], Json.obj [],
        some (Json.obj [('a' :: [], Json.num 2)])⟩ ∧
    (∃ xs, (Json.arr [Json.num 1]) = Json.arr xs) := by
  constructor
  · rfl
  · have h := c4_loader_record_invariants
      ("Plotly.newPlot(gd, [1], \x7b\x7d, \x7b\"a\": 2\x7d);".toList)
      ⟨Json.arr [Json.num 1], Json.obj [],
        some (Json.obj [('a' :: [], Json.num 2)])⟩ (by rfl)
    exact h.1

theorem hexDigitChar_plain {k : Nat} (h : k < 16) :
    hexDigitChar k ≠ '"' ∧ hexDigitChar k ≠ '\\' := by
  interval_cases k <;> exact ⟨by decide, by decide⟩

/-- The escaped body of a serialised string is a well-formed string-literal
interior: quotes and backslashes occur only inside escape pairs. -/
theorem strBody_escString (s : List Char) : StrBody '"' (escString s) := by
  induction s with
  | nil => exact .nil
  | cons ch t ih =>
    rw [escString]
    by_cases h1 : ch = '"'
    · subst h1
      exact .esc '"' _ ih
    by_cases h2 : ch = '\\'
    · subst h2
      rw [show escChar '\\' = '\\' :: '\\' :: [] from rfl]
      exact .esc '\\' _ ih
    by_cases h3 : ch = '\x08'
    · subst h3
      exact .esc 'b' _ ih
    by_cases h4 : ch = '\t'
    · subst h4
      exact .esc 't' _ ih
    by_cases h5 : ch = '\n'
    · subst h5
      exact .esc 'n' _ ih
    by_cases h6 : ch = '\x0c'
    · subst h6
      exact .esc 'f' _ ih
    by_cases h7 : ch = '\r'
    · subst h7
      exact .esc 'r' _ ih
    by_cases h8 : ch.toNat < 32
    · rw [show escChar ch = '\\' :: 'u' :: '0' :: '0' ::
          hexDigitChar (ch.toNat / 16) :: hexDigitChar (ch.toNat % 16) :: []
          from by simp [escChar, h1, h2, h3, h4, h5, h6, h7, h8]]
      have e1 := hexDigitChar_plain (show ch.toNat / 16 < 16 by omega)
      have e2 := hexDigitChar_plain (show ch.toNat % 16 < 16 by omega)
      exact .esc 'u' _ (.chr '0' _ (by decide) (by decide)
        (.chr '0' _ (by decide) (by decide)
          (.chr _ _ e1.1 e1.2 (.chr _ _ e2.1 e2.2 ih))))
    · rw [show escChar ch = ch :: [] from by
        simp [escChar, h1, h2, h3, h4, h5, h6, h7, h8]]
      exact .chr ch _ h1 h2 ih

theorem toks_of_all_plain {o c : Char} (l : List Char)
    (h : ∀ ch ∈ l, ch ≠ o ∧ ch ≠ c ∧ ch ≠ '\'' ∧ ch ≠ '"') : Toks o c l := by
  induction l with
  | nil => exact .nil
  | cons ch t ih =>
      obtain ⟨h1, h2, h3, h4⟩ := h ch (by simp)
      exact .plain ch t h1 h2 h3 h4 (ih (fun x hx => h x (by simp [hx])))

theorem digit_ne_delims {ch : Char} (h : ch.isDigit = true) :
    ch ≠ '[' ∧ ch ≠ ']' ∧ ch ≠ '{' ∧ ch ≠ '}' ∧ ch ≠ '(' ∧ ch ≠ ')' ∧
      ch ≠ '\'' ∧ ch ≠ '"' := by
  refine ⟨?_, ?_, ?_, ?_, ?_, ?_, ?_, ?_⟩ <;> rintro rfl <;>
    exact absurd h (by decide)

/-- A bracket pair used by the locator. -/
def BrPair (o c : Char) : Prop :=
  (o = '[' ∧ c = ']') ∨ (o = '{' ∧ c = '}') ∨ (o = '(' ∧ c = ')')

theorem intChars_plain {o c : Char} (hp : BrPair o c) (n : Int) :
    Toks o c (intChars n) := by
  have hnat : ∀ x : Nat, Toks o c (natChars x) := by
    intro x
    refine toks_of_all_plain _ (fun ch hch => ?_)
    have hd := natChars_all_digits x ch hch
    obtain ⟨d1, d2, d3, d4, d5, d6, d7, d8⟩ := digit_ne_delims hd
    rcases hp with ⟨rfl, rfl⟩ | ⟨rfl, rfl⟩ | ⟨rfl, rfl⟩ <;>
      exact ⟨by assumption, by assumption, d7, d8⟩
  rw [intChars]
  by_cases hn : n < 0
  · rw [if_pos hn]
    refine Toks.plain '-' _ ?_ ?_ (by decide) (by decide) (hnat n.natAbs) <;>
      (rcases hp with ⟨rfl, rfl⟩ | ⟨rfl, rfl⟩ | ⟨rfl, rfl⟩ <;> decide)
  · rw [if_neg hn]
    exact hnat n.toNat

theorem dumpsStr_toks {o c : Char} (k : List Char) :
    Toks o c (dumpsStr k) := by
  have := Toks.strlit (o := o) (c := c) '"' (escString k) []
    (Or.inr rfl) (strBody_escString k) Toks.nil
  simpa [dumpsStr] using this

/-- Serialisations are balanced interiors for each bracket pair the
locator scans with: brackets inside string literals are escaped-inert,
and the pair's own brackets occur only properly nested. -/
theorem dumps_toks {o c : Char} (hp : BrPair o c) (n : Nat) :
    (∀ v, jsize v ≤ n → Toks o c (dumps v)) ∧
    (∀ xs, jsizeElems xs ≤ n → Toks o c (dumpsElems xs)) ∧
    (∀ kvs, jsizeMembers kvs ≤ n → Toks o c (dumpsMembers kvs)) := by
  induction n using Nat.strong_induction_on with
  | _ n ih =>
    have hsep : ∀ l : List Char, Toks o c l →
        Toks o c (',' :: ' ' :: l) := by
      intro l hl
      refine Toks.plain ',' _ ?_ ?_ (by decide) (by decide)
        (Toks.plain ' ' _ ?_ ?_ (by decide) (by decide) hl) <;>
        (rcases hp with ⟨rfl, rfl⟩ | ⟨rfl, rfl⟩ | ⟨rfl, rfl⟩ <;> decide)
    refine ⟨?_, ?_, ?_⟩
    · intro v hsz
      cases v with
      | null =>
          rcases hp with ⟨rfl, rfl⟩ | ⟨rfl, rfl⟩ | ⟨rfl, rfl⟩ <;>
            exact toks_of_all_plain _ (by decide)
      | bool b =>
          cases b <;>
            (rcases hp with ⟨rfl, rfl⟩ | ⟨rfl, rfl⟩ | ⟨rfl, rfl⟩ <;>
              exact toks_of_all_plain _ (by decide))
      | num m => exact intChars_plain hp m
      | str s2 => exact dumpsStr_toks s2
      | arr xs =>
          have hn : 1 ≤ n := le_trans (jsize_pos _) hsz
          have hszE : jsizeElems xs ≤ n - 1 := by
            simp [jsize] at hsz
            omega
          have hE := (ih (n - 1) (by omega)).2.1 xs hszE
          rw [show dumps (Json.arr xs) =
            '[' :: (dumpsElems xs ++ ']' :: []) from rfl]
          rcases hp with ⟨rfl, rfl⟩ | ⟨rfl, rfl⟩ | ⟨rfl, rfl⟩
          · exact Toks.nest _ [] hE Toks.nil
          · refine Toks.plain '[' _ (by decide) (by decide) (by decide)
              (by decide) (Toks.append hE ?_)
            exact Toks.plain ']' [] (by decide) (by decide) (by decide)
              (by decide) Toks.nil
          · refine Toks.plain '[' _ (by decide) (by decide) (by decide)
              (by decide) (Toks.append hE ?_)
            exact Toks.plain ']' [] (by decide) (by decide) (by decide)
              (by decide) Toks.nil
      | obj kvs =>
          have hn : 1 ≤ n := le_trans (jsize_pos _) hsz
          have hszM : jsizeMembers kvs ≤ n - 1 := by
            simp [jsize] at hsz
            omega
          have hM := (ih (n - 1) (by omega)).2.2 kvs hszM
          rw [show dumps (Json.obj kvs) =
            '{' :: (dumpsMembers kvs ++ '}' :: []) from rfl]
          rcases hp with ⟨rfl, rfl⟩ | ⟨rfl, rfl⟩ | ⟨rfl, rfl⟩
          · refine Toks.plain '{' _ (by decide) (by decide) (by decide)
              (by decide) (Toks.append hM ?_)
            exact Toks.plain '}' [] (by decide) (by decide) (by decide)
              (by decide) Toks.nil
          · exact Toks.nest _ [] hM Toks.nil
          · refine Toks.plain '{' _ (by decide) (by decide) (by decide)
              (by decide) (Toks.append hM ?_)
            exact Toks.plain '}' [] (by decide) (by decide) (by decide)
              (by decide) Toks.nil
    · intro xs hsz
      cases xs with
      | nil => exact Toks.nil
      | cons x t =>
          have hn : 1 ≤ n := by
            simp [jsizeElems] at hsz
            omega
          have hszx : jsize x ≤ n - 1 := by
            simp [jsizeElems] at hsz
            omega
          have hszt : jsizeElems t ≤ n - 1 := by
            have := jsize_pos x
            simp [jsizeElems] at hsz
            omega
          have hx := (ih (n - 1) (by omega)).1 x hszx
          have ht := (ih (n - 1) (by omega)).2.1 t hszt
          cases t with
          | nil => simpa [dumpsElems] using hx
          | cons y t3 =>
              rw [show dumpsElems (x :: y :: t3) =
                dumps x ++ ',' :: ' ' :: dumpsElems (y :: t3) from rfl]
              exact Toks.append hx (hsep _ ht)
    · intro kvs hsz
      cases kvs with
      | nil => exact Toks.nil
      | cons kv t =>
          obtain ⟨k, v2⟩ := kv
          have hn : 1 ≤ n := by
            simp [jsizeMembers] at hsz
            omega
          have hszx : jsize v2 ≤ n - 1 := by
            simp [jsizeMembers] at hsz
            omega
          have hszt : jsizeMembers t ≤ n - 1 := by
            have := jsize_pos v2
            simp [jsizeMembers] at hsz
            omega
          have hx := (ih (n - 1) (by omega)).1 v2 hszx
          have ht := (ih (n - 1) (by omega)).2.2 t hszt
          have hcolon : ∀ l : List Char, Toks o c l →
              Toks o c (':' :: ' ' :: l) := by
            intro l hl
            refine Toks.plain ':' _ ?_ ?_ (by decide) (by decide)
              (Toks.plain ' ' _ ?_ ?_ (by decide) (by decide) hl) <;>
              (rcases hp with ⟨rfl, rfl⟩ | ⟨rfl, rfl⟩ | ⟨rfl, rfl⟩ <;> decide)
          cases t with
          | nil =>
              rw [show dumpsMembers ((k, v2) :: []) =
                dumpsStr k ++ ':' :: ' ' :: dumps v2 from rfl]
              exact Toks.append (dumpsStr_toks k) (hcolon _ hx)
          | cons m t3 =>
              rw [show dumpsMembers ((k, v2) :: m :: t3) =
                dumpsStr k ++ ':' :: ' ' ::
                  (dumps v2 ++ ',' :: ' ' :: dumpsMembers (m :: t3)) from by
                simp [dumpsMembers]]
              exact Toks.append (dumpsStr_toks k)
                (hcolon _ (Toks.append hx (hsep _ ht)))

/-- The fixed prefix `Plotly.newPlot(gd, ` of the synthetically
constructed round-trip document. -/
def mkDocPre : List Char :=
  'P' :: 'l' :: 'o' :: 't' :: 'l' :: 'y' :: '.' :: 'n' :: 'e' :: 'w' ::
    'P' :: 'l' :: 'o' :: 't' :: '(' :: 'g' :: 'd' :: ',' :: ' ' :: []

/-- A synthetic chart document embedding two serialised values as the
series and layout arguments of a `Plotly.newPlot` call. -/
def mkDoc (s l : Json) : List Char :=
  mkDocPre ++ (dumps s ++ (',' :: ' ' :: (dumps l ++ ')' :: [])))

theorem drop_len_append {α : Type} (l1 l2 : List α) (n : Nat)
    (h : l1.length = n) : (l1 ++ l2).drop n = l2 := by
  subst h
  exact List.drop_left l1 l2

/-- The locator on a synthetic document: it returns the series span, the
layout span and no config, for arbitrary balanced interiors. -/
theorem extractCallArgs_synthetic (E M : List Char)
    (hE : Toks '[' ']' E) (hM : Toks '{' '}' M)
    (hEp : Toks '(' ')' ('[' :: (E ++ ']' :: [])))
    (hMp : Toks '(' ')' ('{' :: (M ++ '}' :: []))) :
    extractCallArgs ("Plotly.newPlot".toList)
        (mkDocPre ++ ('[' :: (E ++ ']' :: (',' :: ' ' ::
          ('{' :: (M ++ '}' :: (')' :: []))))))) =
      .ok ⟨'g' :: 'd' :: [], '[' :: (E ++ ']' :: []),
        '{' :: (M ++ '}' :: []), none⟩ := by
  have h1 : searchCall ("Plotly.newPlot".toList)
      (mkDocPre ++ ('[' :: (E ++ ']' :: (',' :: ' ' ::
        ('{' :: (M ++ '}' :: (')' :: []))))))) 0 = some 15 := rfl
  have h2 : findCharFrom
      (mkDocPre ++ ('[' :: (E ++ ']' :: (',' :: ' ' ::
        ('{' :: (M ++ '}' :: (')' :: []))))))) ',' 15 = some 17 := rfl
  have h4 : findCharFrom
      (mkDocPre ++ ('[' :: (E ++ ']' :: (',' :: ' ' ::
        ('{' :: (M ++ '}' :: (')' :: []))))))) '[' (17 + 1) = some 19 := rfl
  have h5 := extractBalanced_ok mkDocPre E
    (',' :: ' ' :: ('{' :: (M ++ '}' :: (')' :: []))))
    (o := '[') (c := ']')
    (by decide) (by decide) (by decide) (by decide) (by decide) hE
  rw [show mkDocPre.length = 19 from rfl] at h5
  have hdrop6 :
      (mkDocPre ++ ('[' :: (E ++ ']' :: (',' :: ' ' ::
        ('{' :: (M ++ '}' :: (')' :: []))))))).drop (19 + E.length + 2) =
      ',' :: ' ' :: ('{' :: (M ++ '}' :: (')' :: []))) := by
    have hsplit : mkDocPre ++ ('[' :: (E ++ ']' :: (',' :: ' ' ::
        ('{' :: (M ++ '}' :: (')' :: [])))))) =
        (mkDocPre ++ ('[' :: (E ++ ']' :: []))) ++
          (',' :: ' ' :: ('{' :: (M ++ '}' :: (')' :: [])))) := by
      simp [List.append_assoc]
    rw [hsplit]
    refine drop_len_append _ _ _ ?_
    simp [mkDocPre]
    omega
  have h6 : findCharFrom
      (mkDocPre ++ ('[' :: (E ++ ']' :: (',' :: ' ' ::
        ('{' :: (M ++ '}' :: (')' :: []))))))) '{' (19 + E.length + 2) =
      some (19 + E.length + 2 + 1 + 1) := by
    rw [findCharFrom, hdrop6]
    simp [findIdxFrom, Char.reduceEq, reduceIte]
  have h7 := extractBalanced_ok
    (mkDocPre ++ ('[' :: (E ++ ']' :: (',' :: ' ' :: []))))
    M (')' :: []) (o := '{') (c := '}')
    (by decide) (by decide) (by decide) (by decide) (by decide) hM
  have hA2len : (mkDocPre ++ ('[' :: (E ++ ']' ::
      (',' :: ' ' :: [])))).length = 19 + E.length + 2 + 1 + 1 := by
    simp [mkDocPre]
    omega
  rw [hA2len] at h7
  have hA2eq : (mkDocPre ++ ('[' :: (E ++ ']' :: (',' :: ' ' :: [])))) ++
      '{' :: (M ++ '}' :: (')' :: [])) =
      mkDocPre ++ ('[' :: (E ++ ']' :: (',' :: ' ' ::
        ('{' :: (M ++ '}' :: (')' :: [])))))) := by
    simp [List.append_assoc]
  rw [hA2eq] at h7
  have h8 : findCharFrom
      (mkDocPre ++ ('[' :: (E ++ ']' :: (',' :: ' ' ::
        ('{' :: (M ++ '}' :: (')' :: []))))))) '(' (15 - 1) = some 14 := rfl
  have hI : Toks '(' ')' ('g' :: 'd' :: ',' :: ' ' ::
      (('[' :: (E ++ ']' :: [])) ++ (',' :: ' ' ::
        ('{' :: (M ++ '}' :: []))))) := by
    have t1 : Toks '(' ')' (',' :: ' ' :: ('{' :: (M ++ '}' :: []))) :=
      Toks.plain ',' _ (by decide) (by decide) (by decide) (by decide)
        (Toks.plain ' ' _ (by decide) (by decide) (by decide) (by decide) hMp)
    have t2 := Toks.append hEp t1
    exact Toks.plain 'g' _ (by decide) (by decide) (by decide) (by decide)
      (Toks.plain 'd' _ (by decide) (by decide) (by decide) (by decide)
        (Toks.plain ',' _ (by decide) (by decide) (by decide) (by decide)
          (Toks.plain ' ' _ (by decide) (by decide) (by decide) (by decide)
            t2)))
  have h9 := extractBalanced_ok
    ('P' :: 'l' :: 'o' :: 't' :: 'l' :: 'y' :: '.' :: 'n' :: 'e' :: 'w' ::
      'P' :: 'l' :: 'o' :: 't' :: [])
    ('g' :: 'd' :: ',' :: ' ' ::
      (('[' :: (E ++ ']' :: [])) ++ (',' :: ' ' ::
        ('{' :: (M ++ '}' :: [])))))
    [] (o := '(') (c := ')')
    (by decide) (by decide) (by decide) (by decide) (by decide) hI
  have hA3eq : ('P' :: 'l' :: 'o' :: 't' :: 'l' :: 'y' :: '.' :: 'n' ::
      'e' :: 'w' :: 'P' :: 'l' :: 'o' :: 't' :: []) ++
        '(' :: (('g' :: 'd' :: ',' :: ' ' ::
          (('[' :: (E ++ ']' :: [])) ++ (',' :: ' ' ::
            ('{' :: (M ++ '}' :: []))))) ++ ')' :: []) =
      mkDocPre ++ ('[' :: (E ++ ']' :: (',' :: ' ' ::
        ('{' :: (M ++ '}' :: (')' :: [])))))) := by
    simp [mkDocPre, List.append_assoc]
  rw [hA3eq] at h9
  rw [show ('P' :: 'l' :: 'o' :: 't' :: 'l' :: 'y' :: '.' :: 'n' :: 'e' ::
      'w' :: 'P' :: 'l' :: 'o' :: 't' :: ([] : List Char)).length = 14
    from rfl] at h9
  have hdrop10 :
      (mkDocPre ++ ('[' :: (E ++ ']' :: (',' :: ' ' ::
        ('{' :: (M ++ '}' :: (')' :: []))))))).drop
          (19 + E.length + 2 + 1 + 1 + M.length + 2) = ')' :: [] := by
    have hsplit : mkDocPre ++ ('[' :: (E ++ ']' :: (',' :: ' ' ::
        ('{' :: (M ++ '}' :: (')' :: [])))))) =
        (mkDocPre ++ ('[' :: (E ++ ']' :: (',' :: ' ' ::
          ('{' :: (M ++ '}' :: [])))))) ++ (')' :: []) := by
      simp [List.append_assoc]
    rw [hsplit]
    refine drop_len_append _ _ _ ?_
    simp [mkDocPre]
    omega
  have h10 : findCharFrom
      (mkDocPre ++ ('[' :: (E ++ ']' :: (',' :: ' ' ::
        ('{' :: (M ++ '}' :: (')' :: []))))))) '{'
        (19 + E.length + 2 + 1 + 1 + M.length + 2) = none := by
    rw [findCharFrom, hdrop10]
    simp [findIdxFrom, Char.reduceEq, reduceIte]
  unfold extractCallArgs
  rw [h1]
  try simp only []
  rw [h2]
  try simp only []
  rw [h4]
  try simp only []
  rw [h5]
  try simp only []
  rw [h6]
  try simp only []
  rw [h7]
  try simp only []
  rw [h8]
  try simp only []
  rw [h9]
  try simp only []
  rw [h10]
  try simp only []
  rfl

/-- The loader applied to a synthetic document built from two
serialised well-formed values recovers exactly those values. -/
theorem load_mkDoc (xs : List Json) (kvs : List (List Char × Json))
    (hs : jwf (Json.arr xs) = true) (hl : jwf (Json.obj kvs) = true) :
    load_plot_json_from_html (mkDoc (Json.arr xs) (Json.obj kvs)) =
      .ok ⟨Json.arr xs, Json.obj kvs, none⟩ := by
  have hE := (dumps_toks (Or.inl ⟨rfl, rfl⟩) (jsizeElems xs)).2.1 xs
    (Nat.le_refl _)
  have hM := (dumps_toks (Or.inr (Or.inl ⟨rfl, rfl⟩))
    (jsizeMembers kvs)).2.2 kvs (Nat.le_refl _)
  have hEp : Toks '(' ')' ('[' :: (dumpsElems xs ++ ']' :: [])) := by
    have := (dumps_toks (Or.inr (Or.inr ⟨rfl, rfl⟩))
      (jsize (Json.arr xs))).1 _ (Nat.le_refl _)
    simpa [show dumps (Json.arr xs) =
      '[' :: (dumpsElems xs ++ ']' :: []) from rfl] using this
  have hMp : Toks '(' ')' ('{' :: (dumpsMembers kvs ++ '}' :: [])) := by
    have := (dumps_toks (Or.inr (Or.inr ⟨rfl, rfl⟩))
      (jsize (Json.obj kvs))).1 _ (Nat.le_refl _)
    simpa [show dumps (Json.obj kvs) =
      '{' :: (dumpsMembers kvs ++ '}' :: []) from rfl] using this
  have hext := extractCallArgs_synthetic (dumpsElems xs) (dumpsMembers kvs)
    hE hM hEp hMp
  have hdoc : mkDoc (Json.arr xs) (Json.obj kvs) =
      mkDocPre ++ ('[' :: (dumpsElems xs ++ ']' :: (',' :: ' ' ::
        ('{' :: (dumpsMembers kvs ++ '}' :: (')' :: [])))))) := by
    rw [mkDoc,
      show dumps (Json.arr xs) =
        '[' :: (dumpsElems xs ++ ']' :: []) from rfl,
      show dumps (Json.obj kvs) =
        '{' :: (dumpsMembers kvs ++ '}' :: []) from rfl]
    simp [List.append_assoc]
  have hcontains : containsSub
      ('P' :: 'l' :: 'o' :: 't' :: 'l' :: 'y' :: '.' :: 'n' :: 'e' :: 'w' ::
        'P' :: 'l' :: 'o' :: 't' :: [])
      (mkDocPre ++ ('[' :: (dumpsElems xs ++ ']' :: (',' :: ' ' ::
        ('{' :: (dumpsMembers kvs ++ '}' :: (')' :: []))))))) = true := rfl
  rw [hdoc]
  unfold load_plot_json_from_html
  rw [if_neg (by simp [hcontains])]
  unfold extractPlotlyCallArgs
  rw [hext]
  try simp only []
  rw [show ('[' :: (dumpsElems xs ++ ']' :: [])) =
    dumps (Json.arr xs) from rfl, loads_dumps _ hs]
  try simp only []
  rw [show ('{' :: (dumpsMembers kvs ++ '}' :: [])) =
    dumps (Json.obj kvs) from rfl, loads_dumps _ hl]

/-- C5: round-trip.  For every JSON array and JSON object (well-formed:
no duplicate keys, as for any value coming from Python data), embedding
their serialisations as the series and layout arguments of a
synthetically constructed call-expression document and re-extracting
through the full locate-and-parse pipeline yields series and layout
values equal to the originals — in particular their serialisations are
byte-equal to the original serialised texts. -/
theorem c5_roundtrip (xs : List Json) (kvs : List (List Char × Json))
    (hs : jwf (Json.arr xs) = true) (hl : jwf (Json.obj kvs) = true) :
    ∃ r, load_plot_json_from_html (mkDoc (Json.arr xs) (Json.obj kvs)) =
        .ok r ∧
      r.data = Json.arr xs ∧ r.layout = Json.obj kvs ∧
      dumps r.data = dumps (Json.arr xs) ∧
      dumps r.layout = dumps (Json.obj kvs) :=
  ⟨⟨Json.arr xs, Json.obj kvs, none⟩, load_mkDoc xs kvs hs hl,
    rfl, rfl, rfl, rfl⟩

/-- Witness for C5 at the concrete series `[1]` and layout
`{"a": 2}`. -/
theorem c5_witness :
    ∃ r, load_plot_json_from_html
        (mkDoc (Json.arr [Json.num 1])
          (Json.obj [('a' :: [], Json.num 2)])) = .ok r ∧
      r.data = Json.arr [Json.num 1] ∧
      r.layout = Json.obj [('a' :: [], Json.num 2)] ∧
      dumps r.data = dumps (Json.arr [Json.num 1]) ∧
      dumps r.layout = dumps (Json.obj [('a' :: [], Json.num 2)]) :=
  c5_roundtrip [Json.num 1] [('a' :: [], Json.num 2)]
    (by decide) (by decide)

/-! ### The cache of the loader

`load_plot_json_from_html` in the source is decorated with
`functools.lru_cache(maxsize=64)` and takes the resolved path; the body
first reads the file at that path.  We model a call sequence within one
process: each call sees a snapshot of the filesystem (files may change
between calls) and passes a path; the cache holds at most 64
`(path, record)` pairs in most-recently-used-first order.  Following
CPython, a hit returns the cached record and marks the key most recently
used; a miss computes the body, caches the result only if the body
returns normally (a raised exception is never cached), and discards the
least recently used entry when the insertion would make the cache exceed
64 entries. -/

/-- A snapshot of the filesystem at the moment of one call: the text
that reading the file at a path yields, or none when there is no such
file (the read raises OSError). -/
abbrev Fs : Type := String → Option (List Char)

/-- Errors of one uncached call of the loader on a path: a failed read,
or an error of the loader body on the text that was read. -/
inductive ReadErr where
  | fileMissing
  | load (e : LoadErr)
deriving DecidableEq, Repr

/-- One uncached call: read the file at the path, then run the loader
body on its text. -/
def loadUncached (fs : Fs) (p : String) : Except ReadErr ChartRecord :=
  match fs p with
  | none => .error .fileMissing
  | some text =>
    match load_plot_json_from_html text with
    | .ok r => .ok r
    | .error e => .error (.load e)

/-- The state of `lru_cache(maxsize=64)`: cached `(path, record)`
pairs, most recently used first. -/
abbrev CacheSt : Type := List (String × ChartRecord)

/-- Look a path up in the cache. -/
def lookupCache (p : String) : List (String × ChartRecord) → Option ChartRecord
  | [] => none
  | (q, r) :: t => if q = p then some r else lookupCache p t

/-- Drop the (first) entry of a path from the cache. -/
def removeCache (p : String) :
    List (String × ChartRecord) → List (String × ChartRecord)
  | [] => []
  | (q, r) :: t => if q = p then t else (q, r) :: removeCache p t

/-- One call of the `lru_cache`-wrapped loader: on a hit return the
cached record and move its key to the front; on a miss run the uncached
load, cache the record only on success (dropping the least recently used
entry if the cache would exceed 64 entries) and leave the cache
untouched on an exception. -/
def cachedLoad (fs : Fs) (p : String) (c : CacheSt) :
    Except ReadErr ChartRecord × CacheSt :=
  match lookupCache p c with
  | some r => (.ok r, (p, r) :: removeCache p c)
  | none =>
    match loadUncached fs p with
    | .ok r =>
      (.ok r, if 64 < ((p, r) :: c).length then ((p, r) :: c).dropLast
              else (p, r) :: c)
    | .error e => (.error e, c)

/-- A sequence of loader calls within one process: each event carries
the filesystem snapshot at call time and the path argument.  Returns the
outcome of every call in order, and the final cache. -/
def runLoads : List (Fs × String) → CacheSt →
    List (Except ReadErr ChartRecord) × CacheSt
  | [], c => ([], c)
  | ev :: evs, c =>
    let st := cachedLoad ev.1 ev.2 c
    let rest := runLoads evs st.2
    (st.1 :: rest.1, rest.2)

/-- A filesystem on which every path holds a document whose data
argument is not valid JSON (so the loader body raises
JSONDecodeError). -/
def c7FsBad : Fs := fun _ => some ("Plotly.newPlot(gd, [1 2], \x7b\x7d);".toList)

/-- A filesystem on which every path holds a well-formed document. -/
def c7FsGood : Fs := fun _ => some ("Plotly.newPlot(gd, [1], \x7b\x7d);".toList)

/-- Counterexample to C7 as stated: a parse failure is NOT permanent for
the path.  In one process, a first call on path p fails with
JSONDecodeError; after the file changes, a second call on the very same
path does not yield the same failure — it re-reads and re-parses and
succeeds, because `lru_cache` never caches a call that raised. -/
theorem c7_failure_retry_counterexample :
    (runLoads ((c7FsBad, "p") :: (c7FsGood, "p") :: []) []).1 =
      .error (.load .jsonDecode) ::
        .ok ⟨Json.arr (Json.num 1 :: []), Json.obj [], none⟩ :: [] := rfl

/-- C7, amended: a failed load is not cached at all.  Whenever a call of
the cached loader raises, it leaves the cache exactly as it was, and any
subsequent call with the same path runs the read-and-parse afresh
against the then-current filesystem (its outcome is that of an uncached
load, not a replay of the recorded failure). -/
theorem c7_failure_not_cached_retries (fs : Fs) (p : String) (c : CacheSt)
    (e : ReadErr) (h : (cachedLoad fs p c).1 = .error e) :
    (cachedLoad fs p c).2 = c ∧
      ∀ fs2 : Fs, (cachedLoad fs2 p ((cachedLoad fs p c).2)).1 =
        loadUncached fs2 p := by
  cases hl : lookupCache p c with
  | some r => simp [cachedLoad, hl] at h
  | none =>
    cases hu : loadUncached fs p with
    | ok r => simp [cachedLoad, hl, hu] at h
    | error e2 =>
      have h2 : (cachedLoad fs p c).2 = c := by simp [cachedLoad, hl, hu]
      refine ⟨h2, fun fs2 => ?_⟩
      rw [h2]
      cases hu2 : loadUncached fs2 p with
      | ok r => simp [cachedLoad, hl, hu2]
      | error e3 => simp [cachedLoad, hl, hu2]

/-- Witness for the amended C7 at a concrete failing call: the bad file
is loaded on path p (JSONDecodeError), the cache stays empty, and the
follow-up call on p returns the fresh uncached result. -/
theorem c7_witness :
    (cachedLoad c7FsBad "p" []).2 = [] ∧
      (cachedLoad c7FsGood "p" ((cachedLoad c7FsBad "p" []).2)).1 =
        loadUncached c7FsGood "p" :=
  ⟨(c7_failure_not_cached_retries c7FsBad "p" []
      (.load .jsonDecode) rfl).1,
   (c7_failure_not_cached_retries c7FsBad "p" []
      (.load .jsonDecode) rfl).2 c7FsGood⟩

/-- Distinct filler paths used to fill the cache. -/
def c6Path (i : Nat) : String := String.mk ('q' :: natChars i)

/-- A filesystem holding, at every path, a well-formed document whose
data array is `[2]`. -/
def c6FsB : Fs := fun _ => some ("Plotly.newPlot(gd, [2], \x7b\x7d);".toList)

/-- One process call sequence: load path p, then 64 distinct other
paths, then path p again after the file at p changed. -/
def c6Events : List (Fs × String) :=
  (c7FsGood, "p") ::
    ((List.range 64).map (fun i => (c7FsGood, c6Path i)) ++
      (c6FsB, "p") :: [])

set_option maxRecDepth 100000 in
set_option maxHeartbeats 2000000 in
/-- Counterexample to C6 as stated: the memoization is NOT for the
process lifetime regardless of how many distinct paths are loaded in
between.  With 64 distinct other paths loaded in between, the entry for
p is evicted (`lru_cache` has maxsize 64), so a second call with the
same path p re-reads the changed file and returns a different record
than the first call. -/
theorem c6_eviction_counterexample :
    (runLoads c6Events []).1.head? =
        some (.ok ⟨Json.arr (Json.num 1 :: []), Json.obj [], none⟩) ∧
      (runLoads c6Events []).1.getLast? =
        some (.ok ⟨Json.arr (Json.num 2 :: []), Json.obj [], none⟩) ∧
      (⟨Json.arr (Json.num 1 :: []), Json.obj [], none⟩ : ChartRecord) ≠
        ⟨Json.arr (Json.num 2 :: []), Json.obj [], none⟩ := by
  refine ⟨rfl, rfl, fun h => ?_⟩
  have h1 : Json.arr (Json.num 1 :: []) = Json.arr (Json.num 2 :: []) :=
    congrArg ChartRecord.data h
  simp only [Json.arr.injEq, List.cons.injEq, Json.num.injEq,
    and_true] at h1
  omega

/-- The paths cached in a cache state. -/
def cacheKeys (c : CacheSt) : List String := c.map Prod.fst

theorem lookup_remove_ne (p q : String) (h : q ≠ p) :
    ∀ c : CacheSt, lookupCache q (removeCache p c) = lookupCache q c := by
  intro c
  induction c with
  | nil => rfl
  | cons kv t ih =>
    obtain ⟨k, r⟩ := kv
    by_cases hk : k = p
    · subst hk
      have hkq : ¬ (k = q) := fun hq => h (hq.symm)
      simp [removeCache, lookupCache, hkq]
    · by_cases hkq : k = q
      · subst hkq
        simp [removeCache, lookupCache, hk]
      · simp [removeCache, lookupCache, hk, hkq, ih]

theorem lookup_none_not_mem {p : String} :
    ∀ {c : CacheSt}, lookupCache p c = none → p ∉ cacheKeys c := by
  intro c
  induction c with
  | nil => intro _ hm; simp [cacheKeys] at hm
  | cons kv t ih =>
    obtain ⟨k, r⟩ := kv
    intro h hm
    by_cases hk : k = p
    · simp [lookupCache, hk] at h
    · simp [lookupCache, hk] at h
      simp [cacheKeys] at hm
      rcases hm with hm | hm
      · exact hk hm.symm
      · exact ih h (by simpa [cacheKeys] using hm)

theorem keys_remove_subset (p : String) :
    ∀ c : CacheSt, cacheKeys (removeCache p c) ⊆ cacheKeys c := by
  intro c
  induction c with
  | nil => intro q hq; exact hq
  | cons kv t ih =>
    obtain ⟨k, r⟩ := kv
    intro q hq
    have hck : ∀ (k2 : String) (r2 : ChartRecord) (t2 : CacheSt),
        cacheKeys ((k2, r2) :: t2) = k2 :: cacheKeys t2 := fun _ _ _ => rfl
    by_cases hk : k = p
    · have hrm : removeCache p ((k, r) :: t) = t := by
        simp [removeCache, hk]
      rw [hrm] at hq
      rw [hck]
      exact List.mem_cons_of_mem k hq
    · have hrm : removeCache p ((k, r) :: t) = (k, r) :: removeCache p t := by
        simp [removeCache, hk]
      rw [hrm, hck] at hq
      rw [hck]
      rcases List.mem_cons.mp hq with rfl | hq
      · exact List.mem_cons_self q _
      · exact List.mem_cons_of_mem k (ih hq)

theorem nodup_keys_remove (p : String) :
    ∀ {c : CacheSt}, (cacheKeys c).Nodup →
      (cacheKeys (removeCache p c)).Nodup := by
  intro c
  induction c with
  | nil => intro h; simpa [removeCache] using h
  | cons kv t ih =>
    obtain ⟨k, r⟩ := kv
    intro h
    simp only [cacheKeys, List.map_cons, List.nodup_cons] at h
    by_cases hk : k = p
    · simpa [removeCache, hk, cacheKeys] using h.2
    · simp only [removeCache, if_neg hk, cacheKeys, List.map_cons,
        List.nodup_cons]
      refine ⟨fun hm => h.1 (keys_remove_subset p t hm), ih h.2⟩

theorem not_mem_keys_remove (p : String) :
    ∀ {c : CacheSt}, (cacheKeys c).Nodup →
      p ∉ cacheKeys (removeCache p c) := by
  intro c
  induction c with
  | nil => intro _ hm; simp [removeCache, cacheKeys] at hm
  | cons kv t ih =>
    obtain ⟨k, r⟩ := kv
    intro h
    simp only [cacheKeys, List.map_cons, List.nodup_cons] at h
    by_cases hk : k = p
    · subst hk
      simpa [removeCache, cacheKeys] using h.1
    · simp only [removeCache, if_neg hk, cacheKeys, List.map_cons,
        List.mem_cons]
      rintro (hm | hm)
      · exact hk hm.symm
      · exact ih h.2 hm

/-- One call preserves the cache invariant (distinct cached paths, all
from the set S of paths the process ever requests, with S small enough
to fit the cache), never loses an existing entry, and leaves any record
it returned with success retrievable under its path. -/
theorem cachedLoad_step (fs : Fs) (p : String) (c : CacheSt)
    (S : List String) (hcard : S.length ≤ 64) (hp : p ∈ S)
    (h1 : (cacheKeys c).Nodup) (h2 : ∀ q ∈ cacheKeys c, q ∈ S) :
    ((cacheKeys (cachedLoad fs p c).2).Nodup ∧
      ∀ q ∈ cacheKeys (cachedLoad fs p c).2, q ∈ S) ∧
    (∀ q r, lookupCache q c = some r →
      lookupCache q (cachedLoad fs p c).2 = some r) ∧
    (∀ r, (cachedLoad fs p c).1 = .ok r →
      lookupCache p (cachedLoad fs p c).2 = some r) := by
  cases hl : lookupCache p c with
  | some r0 =>
    have hres : cachedLoad fs p c = (.ok r0, (p, r0) :: removeCache p c) := by
      simp [cachedLoad, hl]
    rw [hres]
    refine ⟨⟨?_, ?_⟩, ?_, ?_⟩
    · simp only [cacheKeys, List.map_cons, List.nodup_cons]
      exact ⟨not_mem_keys_remove p h1, nodup_keys_remove p h1⟩
    · intro q hq
      simp only [cacheKeys, List.map_cons, List.mem_cons] at hq
      rcases hq with rfl | hq
      · exact hp
      · exact h2 q (keys_remove_subset p c hq)
    · intro q r hq
      by_cases hpq : p = q
      · subst hpq
        rw [hl] at hq
        simpa [lookupCache] using hq
      · have : ¬ (p = q) := hpq
        simp only [lookupCache, if_neg this]
        rw [lookup_remove_ne p q (fun hq2 => hpq hq2.symm) c]
        exact hq
    · intro r hr
      have : r0 = r := by simpa using hr
      subst this
      simp [lookupCache]
  | none =>
    cases hu : loadUncached fs p with
    | ok r0 =>
      have hnotin : p ∉ cacheKeys c := lookup_none_not_mem hl
      have hnd : (p :: cacheKeys c).Nodup := by
        simp only [List.nodup_cons]
        exact ⟨hnotin, h1⟩
      have hsub : (p :: cacheKeys c) ⊆ S := by
        intro q hq
        rcases List.mem_cons.mp hq with rfl | hq
        · exact hp
        · exact h2 q hq
      have hlen : (p :: cacheKeys c).length ≤ S.length :=
        (List.subperm_of_subset hnd hsub).length_le
      have hclen : c.length = (cacheKeys c).length := by
        simp [cacheKeys]
      have hsmall : ¬ (64 < c.length + 1) := by
        simp only [List.length_cons] at hlen
        omega
      have hres : cachedLoad fs p c = (.ok r0, (p, r0) :: c) := by
        simp [cachedLoad, hl, hu, hsmall]
      rw [hres]
      refine ⟨⟨?_, ?_⟩, ?_, ?_⟩
      · simpa [cacheKeys] using hnd
      · intro q hq
        simp only [cacheKeys, List.map_cons, List.mem_cons] at hq
        rcases hq with rfl | hq
        · exact hp
        · exact h2 q hq
      · intro q r hq
        by_cases hpq : p = q
        · subst hpq
          rw [hl] at hq
          exact absurd hq (by simp)
        · simp only [lookupCache, if_neg hpq]
          exact hq
      · intro r hr
        have : r0 = r := by simpa using hr
        subst this
        simp [lookupCache]
    | error e =>
      have hres : cachedLoad fs p c = (.error e, c) := by
        simp [cachedLoad, hl, hu]
      rw [hres]
      exact ⟨⟨h1, h2⟩, fun q r hq => hq, fun r hr => absurd hr (by simp)⟩

/-- Running any event sequence whose paths all come from a set S of at
most 64 paths preserves the cache invariant and never loses a cached
entry. -/
theorem runLoads_keeps (S : List String) (hcard : S.length ≤ 64) :
    ∀ (evs : List (Fs × String)) (c : CacheSt),
      (∀ e ∈ evs, e.2 ∈ S) →
      (cacheKeys c).Nodup → (∀ q ∈ cacheKeys c, q ∈ S) →
      ((cacheKeys (runLoads evs c).2).Nodup ∧
        ∀ q ∈ cacheKeys (runLoads evs c).2, q ∈ S) ∧
      (∀ q r, lookupCache q c = some r →
        lookupCache q (runLoads evs c).2 = some r) := by
  intro evs
  induction evs with
  | nil => exact fun c _ h1 h2 => ⟨⟨h1, h2⟩, fun q r hq => hq⟩
  | cons ev evs ih =>
    intro c hmem h1 h2
    have hstep := cachedLoad_step ev.1 ev.2 c S hcard
      (hmem ev (List.mem_cons_self ev evs)) h1 h2
    have hrest := ih (cachedLoad ev.1 ev.2 c).2
      (fun e he => hmem e (List.mem_cons_of_mem ev he))
      hstep.1.1 hstep.1.2
    have hrun : runLoads (ev :: evs) c =
        ((cachedLoad ev.1 ev.2 c).1 ::
          (runLoads evs (cachedLoad ev.1 ev.2 c).2).1,
          (runLoads evs (cachedLoad ev.1 ev.2 c).2).2) := rfl
    rw [hrun]
    exact ⟨hrest.1, fun q r hq => hrest.2 q r (hstep.2.1 q r hq)⟩

theorem runLoads_length :
    ∀ (evs : List (Fs × String)) (c : CacheSt),
      (runLoads evs c).1.length = evs.length := by
  intro evs
  induction evs with
  | nil => intro c; rfl
  | cons ev evs ih =>
    intro c
    have hrun : runLoads (ev :: evs) c =
        ((cachedLoad ev.1 ev.2 c).1 ::
          (runLoads evs (cachedLoad ev.1 ev.2 c).2).1,
          (runLoads evs (cachedLoad ev.1 ev.2 c).2).2) := rfl
    rw [hrun]
    simp [ih]

theorem runLoads_append (a b : List (Fs × String)) :
    ∀ c : CacheSt, runLoads (a ++ b) c =
      ((runLoads a c).1 ++ (runLoads b (runLoads a c).2).1,
        (runLoads b (runLoads a c).2).2) := by
  induction a with
  | nil => intro c; rfl
  | cons ev evs ih =>
    intro c
    have hrun : ∀ (l : List (Fs × String)) (c2 : CacheSt),
        runLoads (ev :: l) c2 =
          ((cachedLoad ev.1 ev.2 c2).1 ::
            (runLoads l (cachedLoad ev.1 ev.2 c2).2).1,
            (runLoads l (cachedLoad ev.1 ev.2 c2).2).2) :=
      fun l c2 => rfl
    rw [List.cons_append, hrun, hrun, ih]
    rfl

theorem cachedLoad_hit (fs : Fs) (p : String) (c : CacheSt)
    (r : ChartRecord) (h : lookupCache p c = some r) :
    (cachedLoad fs p c).1 = .ok r := by
  rw [show cachedLoad fs p c = (.ok r, (p, r) :: removeCache p c) from by
    simp [cachedLoad, h]]

/-- C6, amended: the memoization contract holds only up to the cache
capacity.  For any one-process call sequence all of whose paths come
from a set S of at most 64 distinct paths (so the `lru_cache(maxsize=64)`
never evicts), once a call of the loader on path p has succeeded with
record r, every later call with path p returns exactly r — with no
invalidation on file change: the filesystem snapshots of the calls in
between and of the later call itself are arbitrary. -/
theorem c6_load_memoized_within_capacity
    (evs1 evs2 evs3 : List (Fs × String)) (fs1 fs2 : Fs) (p : String)
    (S : List String) (hcard : S.length ≤ 64)
    (hsub : ∀ e ∈ evs1 ++ ((fs1, p) :: (evs2 ++ ((fs2, p) :: evs3))), e.2 ∈ S)
    (r : ChartRecord)
    (hfirst : (runLoads (evs1 ++ ((fs1, p) :: (evs2 ++ ((fs2, p) :: evs3))))
        []).1[evs1.length]? = some (.ok r)) :
    (runLoads (evs1 ++ ((fs1, p) :: (evs2 ++ ((fs2, p) :: evs3))))
        []).1[evs1.length + 1 + evs2.length]? = some (.ok r) := by
  have hp : p ∈ S := hsub (fs1, p) (by simp)
  have hcons : ∀ (fsx : Fs) (l : List (Fs × String)) (c : CacheSt),
      runLoads ((fsx, p) :: l) c =
        ((cachedLoad fsx p c).1 ::
          (runLoads l (cachedLoad fsx p c).2).1,
          (runLoads l (cachedLoad fsx p c).2).2) := fun _ _ _ => rfl
  have hlen1 : (runLoads evs1 ([] : CacheSt)).1.length = evs1.length :=
    runLoads_length evs1 []
  rw [runLoads_append evs1 ((fs1, p) :: (evs2 ++ (fs2, p) :: evs3))
    ([] : CacheSt)] at hfirst ⊢
  dsimp only at hfirst ⊢
  rw [List.getElem?_append_right hlen1.le, hlen1, Nat.sub_self,
    hcons fs1] at hfirst
  dsimp only at hfirst
  rw [List.getElem?_cons_zero] at hfirst
  have hst1 : (cachedLoad fs1 p (runLoads evs1 ([] : CacheSt)).2).1 =
      .ok r := by
    exact Option.some.inj hfirst
  have hmem1 : ∀ e ∈ evs1, e.2 ∈ S :=
    fun e he => hsub e (List.mem_append_left _ he)
  have hinv1 := runLoads_keeps S hcard evs1 [] hmem1
    (by simp [cacheKeys]) (by simp [cacheKeys])
  have hstep1 := cachedLoad_step fs1 p (runLoads evs1 ([] : CacheSt)).2
    S hcard hp hinv1.1.1 hinv1.1.2
  have hcached :
      lookupCache p
        (cachedLoad fs1 p (runLoads evs1 ([] : CacheSt)).2).2 = some r :=
    hstep1.2.2 r hst1
  have hmem2 : ∀ e ∈ evs2, e.2 ∈ S := by
    intro e he
    exact hsub e (by simp [List.mem_append, he])
  have hkeep2 := runLoads_keeps S hcard evs2
    (cachedLoad fs1 p (runLoads evs1 ([] : CacheSt)).2).2 hmem2
    hstep1.1.1 hstep1.1.2
  have hlook2 := hkeep2.2 p r hcached
  have hidx : evs1.length + 1 + evs2.length - evs1.length =
      evs2.length + 1 := by omega
  rw [List.getElem?_append_right (by omega : (runLoads evs1
      ([] : CacheSt)).1.length ≤ evs1.length + 1 + evs2.length),
    hlen1, hidx, hcons fs1]
  dsimp only
  rw [List.getElem?_cons_succ,
    runLoads_append evs2 ((fs2, p) :: evs3)]
  dsimp only
  have hlen2 : (runLoads evs2
      (cachedLoad fs1 p (runLoads evs1 ([] : CacheSt)).2).2).1.length =
      evs2.length := runLoads_length evs2 _
  rw [List.getElem?_append_right hlen2.le, hlen2, Nat.sub_self,
    hcons fs2]
  dsimp only
  rw [List.getElem?_cons_zero]
  rw [cachedLoad_hit fs2 p _ r hlook2]

/-- Witness for the amended C6: two consecutive calls on the same path
p (a set of one distinct path), where the file at p changes between the
calls; the second call still returns the record of the first. -/
theorem c6_witness :
    (runLoads ((c7FsGood, "p") :: (c6FsB, "p") :: []) []).1[1]? =
      some (.ok ⟨Json.arr (Json.num 1 :: []), Json.obj [], none⟩) :=
  c6_load_memoized_within_capacity [] [] [] c7FsGood c6FsB "p"
    ("p" :: []) (by decide)
    (by
      intro e he
      simp only [List.nil_append] at he
      rcases List.mem_cons.mp he with rfl | he2
      · exact List.mem_cons_self _ _
      · rcases List.mem_cons.mp he2 with rfl | he3
        · exact List.mem_cons_self _ _
        · exact absurd he3 (List.not_mem_nil e))
    ⟨Json.arr (Json.num 1 :: []), Json.obj [], none⟩ rfl

/-! ### The catalog resolver

`PLOT_ENTRIES`, `_find_plot_file`, `get_figure_json` and
`get_all_figures_json` from the source.  The repository root and the
directory holding the module (`_repo_root()` and `Path(__file__).parent`
in the source — collaborators that only supply two directories) are
abstract path parameters; the filesystem is a snapshot giving each
path its text, plus the ordered result list of `root.rglob(filename)`. -/

/-- An entry of the static catalog: key, base filename (files are
expected under docs/plots) and fallback title. -/
structure PlotEntry where
  key : String
  filename : String
  fallback_title : String
deriving DecidableEq, Repr

/-- The catalog of the 10 plots, copied from the source. -/
def PLOT_ENTRIES : List PlotEntry :=
  ⟨"third_seroperevalence", "Third Seroperevalence.html",
    "Third Seroperevalence"⟩ ::
  ⟨"another_histogram_for_participation",
    "Another Histogram for Participation.html",
    "Another Histogram for Participation"⟩ ::
  ⟨"interval_days", "Interval days.html", "Interval days"⟩ ::
  ⟨"npi", "NPI.html", "NPI"⟩ ::
  ⟨"number_of_participation", "number of participation.html",
    "number of participation"⟩ ::
  ⟨"mask_shop_usage", "mask shop usage.html", "mask shop usage"⟩ ::
  ⟨"partixipation", "Partixipation.html", "Partixipation"⟩ ::
  ⟨"prevalence", "Prevalence.html", "Prevalence"⟩ ::
  ⟨"box_plot_health_status", "Box Plot Health Status.html",
    "Box Plot Health Status"⟩ ::
  ⟨"distribution_level", "distribution_level.html",
    "Income Distribution (distribution_level)"⟩ :: []

/-- The filesystem as the resolver sees it: the text of the file at
each path (none when there is no such file), and the ordered matches
that a recursive glob for a filename under the repository root
returns. -/
structure FsM where
  content : String → Option (List Char)
  rglob : String → List String

/-- Path existence, as `Path.exists()`: the path has readable text. -/
def existsAt (fs : FsM) (p : String) : Bool := (fs.content p).isSome

/-- `_find_plot_file`: first preference docs/plots, then quick checks
in common locations, then a recursive search by name; otherwise
FileNotFoundError. -/
def findPlotFile (fs : FsM) (root moduleDir : String)
    (filename : String) : Except Unit String :=
  let primary := root ++ "/docs/plots/" ++ filename
  if existsAt fs primary then .ok primary
  else
    let candidates :=
      (root ++ "/" ++ filename) ::
      (root ++ "/web/" ++ filename) ::
      (root ++ "/public/" ++ filename) ::
      (root ++ "/docs/" ++ filename) ::
      (root ++ "/static/" ++ filename) ::
      (root ++ "/site/" ++ filename) ::
      (moduleDir ++ "/" ++ filename) :: []
    match candidates.find? (fun c => existsAt fs c) with
    | some c => .ok c
    | none =>
      match fs.rglob filename with
      | m :: _ => .ok m
      | [] => .error ()

/-- Errors of `get_figure_json`: KeyError for an unknown key,
FileNotFoundError from `_find_plot_file`, and the read or load errors
of `load_plot_json_from_html` on the resolved path. -/
inductive FigErr where
  | unknownKey
  | notFound
  | read (e : ReadErr)
deriving DecidableEq, Repr

/-- `get_figure_json`: look the key up in the static catalog (KeyError
when absent), resolve the filename to a path, and load that path,
propagating resolution and load failures unmodified. -/
def get_figure_json (fs : FsM) (root moduleDir : String)
    (key : String) : Except FigErr ChartRecord :=
  match PLOT_ENTRIES.find? (fun e => e.key == key) with
  | none => .error .unknownKey
  | some entry =>
    match findPlotFile fs root moduleDir entry.filename with
    | .error _ => .error .notFound
    | .ok path => (loadUncached fs.content path).mapError FigErr.read

/-- A value of the mapping `get_all_figures_json` returns: a figure
record, or the inline error object
`\x7b"error": str(ex), "filename": "docs/plots/" + filename\x7d`. -/
inductive FigOut where
  | figure (r : ChartRecord)
  | errorVal (ex : FigErr) (filename : String)

/-- The loop body of `get_all_figures_json` over the remaining catalog
entries: each entry gets `get_figure_json` of its key, with any raised
error caught and turned into the inline error value. -/
def getAllAux (fs : FsM) (root moduleDir : String) :
    List PlotEntry → List (String × FigOut)
  | [] => []
  | e :: rest =>
    (e.key,
      match get_figure_json fs root moduleDir e.key with
      | .ok r => FigOut.figure r
      | .error ex =>
        FigOut.errorVal ex ("docs/plots/" ++ e.filename)) ::
      getAllAux fs root moduleDir rest

/-- `get_all_figures_json`: the mapping key to figure-or-error over the
whole catalog (a Python dict built in catalog order with distinct keys,
modelled as an association list). -/
def get_all_figures_json (fs : FsM) (root moduleDir : String) :
    List (String × FigOut) :=
  getAllAux fs root moduleDir PLOT_ENTRIES

/-- Reading the returned mapping at a key, as a dict read. -/
def lookupFig (k : String) : List (String × FigOut) → Option FigOut
  | [] => none
  | (q, v) :: t => if q = k then some v else lookupFig k t

theorem getAllAux_keys (fs : FsM) (root moduleDir : String) :
    ∀ entries : List PlotEntry,
      (getAllAux fs root moduleDir entries).map Prod.fst =
        entries.map PlotEntry.key := by
  intro entries
  induction entries with
  | nil => rfl
  | cons e rest ih => simp [getAllAux, ih]

theorem getAllAux_lookup (fs : FsM) (root moduleDir : String) :
    ∀ entries : List PlotEntry,
      (entries.map PlotEntry.key).Nodup →
      ∀ e ∈ entries,
        lookupFig e.key (getAllAux fs root moduleDir entries) =
          some (match get_figure_json fs root moduleDir e.key with
            | .ok r => FigOut.figure r
            | .error ex =>
              FigOut.errorVal ex ("docs/plots/" ++ e.filename)) := by
  intro entries
  induction entries with
  | nil => intro _ e he; exact absurd he (List.not_mem_nil e)
  | cons e0 rest ih =>
    intro hnd e he
    simp only [List.map_cons, List.nodup_cons] at hnd
    rcases List.mem_cons.mp he with rfl | he2
    · simp [getAllAux, lookupFig]
    · have hne : e0.key ≠ e.key := by
        intro hk
        exact hnd.1 (hk ▸ List.mem_map_of_mem PlotEntry.key he2)
      simp only [getAllAux, lookupFig, if_neg hne]
      exact ih hnd.2 e he2

/-- C8: `get_all_figures_json` is total (it is a plain function into a
mapping, never an exception), its mapping has an entry for every key of
the static catalog (in catalog order), and the value under each key is
exactly determined by that single key's own fetch: a figure record when
`get_figure_json` succeeds for the key, and the inline
error-and-filename object when it fails — so one failing entry never
affects, and is never affected by, the results of the others. -/
theorem c8_getall_isolation (fs : FsM) (root moduleDir : String) :
    (get_all_figures_json fs root moduleDir).map Prod.fst =
      PLOT_ENTRIES.map PlotEntry.key ∧
    ∀ e ∈ PLOT_ENTRIES,
      lookupFig e.key (get_all_figures_json fs root moduleDir) =
        some (match get_figure_json fs root moduleDir e.key with
          | .ok r => FigOut.figure r
          | .error ex =>
            FigOut.errorVal ex ("docs/plots/" ++ e.filename)) :=
  ⟨getAllAux_keys fs root moduleDir PLOT_ENTRIES,
    getAllAux_lookup fs root moduleDir PLOT_ENTRIES (by decide)⟩

/-- A filesystem with no files at all and empty recursive searches. -/
def emptyFsM : FsM := ⟨fun _ => none, fun _ => []⟩

/-- Witness for C8 on the empty filesystem: the catalog key prevalence
is present in the mapping and carries the inline error value (its file
resolves nowhere), rather than the whole mapping failing. -/
theorem c8_witness :
    lookupFig "prevalence" (get_all_figures_json emptyFsM "" "") =
      some (FigOut.errorVal .notFound "docs/plots/Prevalence.html") :=
  (c8_getall_isolation emptyFsM "" "").2
    ⟨"prevalence", "Prevalence.html", "Prevalence"⟩ (by decide)

/-- C9: `get_figure_json` fails with KeyError exactly when the key is
not in the static catalog; for a key that is in the catalog, the
outcome is that of resolving and loading that entry's file, propagated
unmodified — FileNotFoundError when no candidate path exists (an error
distinct from KeyError by construction), and otherwise the uncached
load's own success or failure. -/
theorem c9_unknown_key_vs_notfound (fs : FsM) (root moduleDir : String)
    (key : String) :
    (get_figure_json fs root moduleDir key = .error .unknownKey ↔
      ∀ e ∈ PLOT_ENTRIES, e.key ≠ key) ∧
    ∀ entry, PLOT_ENTRIES.find? (fun e => e.key == key) = some entry →
      ((findPlotFile fs root moduleDir entry.filename = .error () →
          get_figure_json fs root moduleDir key = .error .notFound) ∧
        ∀ path, findPlotFile fs root moduleDir entry.filename =
            .ok path →
          get_figure_json fs root moduleDir key =
            (loadUncached fs.content path).mapError FigErr.read) := by
  have hchar : ∀ entry,
      PLOT_ENTRIES.find? (fun e => e.key == key) = some entry →
      get_figure_json fs root moduleDir key ≠ .error .unknownKey := by
    intro entry hfind h
    simp only [get_figure_json, hfind] at h
    cases hres : findPlotFile fs root moduleDir entry.filename with
    | error u => rw [hres] at h; simp at h
    | ok path =>
      rw [hres] at h
      simp only [] at h
      cases hload : loadUncached fs.content path with
      | ok r => rw [hload] at h; simp [Except.mapError] at h
      | error e => rw [hload] at h; simp [Except.mapError] at h
  refine ⟨⟨?_, ?_⟩, ?_⟩
  · intro h e he hk
    cases hfind : PLOT_ENTRIES.find? (fun e2 => e2.key == key) with
    | some entry => exact hchar entry hfind h
    | none =>
      have hnone := List.find?_eq_none.mp hfind e he
      simp [hk] at hnone
  · intro h
    have hfind : PLOT_ENTRIES.find? (fun e => e.key == key) = none :=
      List.find?_eq_none.mpr (fun e he => by
        simp only [beq_iff_eq]
        exact h e he)
    simp [get_figure_json, hfind]
  · intro entry hfind
    constructor
    · intro herr
      simp only [get_figure_json, hfind]
      rw [herr]
    · intro path hok
      simp only [get_figure_json, hfind]
      rw [hok]

/-- Witness for C9: on the empty filesystem, the catalog key prevalence
fails with FileNotFoundError, the unknown key fails with KeyError, and
the two errors are distinct. -/
theorem c9_witness :
    get_figure_json emptyFsM "" "" "prevalence" = .error .notFound ∧
      get_figure_json emptyFsM "" "" "nonexistent-key" =
        .error .unknownKey ∧
      FigErr.notFound ≠ FigErr.unknownKey := by
  refine ⟨?_, ?_, by decide⟩
  · exact ((c9_unknown_key_vs_notfound emptyFsM "" "" "prevalence").2
      ⟨"prevalence", "Prevalence.html", "Prevalence"⟩ (by rfl)).1 (by rfl)
  · exact (c9_unknown_key_vs_notfound emptyFsM "" ""
      "nonexistent-key").1.mpr (by decide)

end Muspad
